import Mathlib

/-!
Verification development for the GTOLite helper scripts.

The Python sources are embedded shallowly:
  * strings are Lean Strings, manipulated through their character lists;
  * Python ints are modelled as Int, Python floats as Rat (every concrete
    number appearing in the claims and in the inputs used below is a small
    dyadic rational, on which Python float arithmetic is exact);
  * code that can raise an exception is modelled with Option, where none
    means "raises";
  * the while-loop of the tree enumerator takes an explicit fuel argument,
    with none meaning "fuel exhausted" (the Python loop has no such case,
    every theorem below either holds for all fuel values or is evaluated
    at a fuel large enough for the loop to finish).

Section 1 models the Python primitives used by the scripts (str.strip,
str.split, int(), float(), round(), str(int), dict lookup).  Python int()
and float() accept a few exotic forms (underscore digit separators,
inf/nan, unicode digits) that never occur in this corpus and are not
modelled; the model covers optional surrounding whitespace, an optional
sign, and plain decimal notation (with exponent for float).
-/

namespace GTO

/-!
Rational arithmetic helpers.  The Rat arithmetic instances of the
ambient library are deliberately irreducible, which blocks kernel
evaluation in decide; these wrappers compute the same normalised values
through mkRat and Rat.divInt, which do evaluate.  rMin and rMax follow
the argument order of the Python builtins min and max (the second
argument is returned only when strictly smaller respectively larger).
-/

def rAdd (a b : Rat) : Rat := mkRat (a.num * b.den + b.num * a.den) (a.den * b.den)

def rSub (a b : Rat) : Rat := mkRat (a.num * b.den - b.num * a.den) (a.den * b.den)

def rMul (a b : Rat) : Rat := mkRat (a.num * b.num) (a.den * b.den)

/-- Exact division (the Python uses never divide by zero). -/
def rDiv (a b : Rat) : Rat := Rat.divInt (a.num * b.den) (b.num * a.den)

def rOfInt (i : Int) : Rat := mkRat i 1

def rOfNat (n : Nat) : Rat := mkRat n 1

def rMin (a b : Rat) : Rat := if Rat.blt b a then b else a

def rMax (a b : Rat) : Rat := if Rat.blt a b then b else a

/-- Floor of a rational (the denominator is positive). -/
def rFloor (q : Rat) : Int := Int.ediv q.num q.den

/-- Python ASCII whitespace, as stripped by str.strip and str.split. -/
def pyIsSpace (c : Char) : Bool :=
  c = ' ' || c = '\t' || c = '\n' || c = '\r' || c = '\x0b' || c = '\x0c'

/-- Characters of a string. -/
def chars (s : String) : List Char := s.data

/-- str.strip on a character list. -/
def charsStrip (l : List Char) : List Char :=
  ((l.dropWhile pyIsSpace).reverse.dropWhile pyIsSpace).reverse

/-- Python str.strip(). -/
def pyStrip (s : String) : String := String.mk (charsStrip (chars s))

/-- str.split() with no separator: split on whitespace runs, no empty parts. -/
def wsSplitAux : List Char → List Char → List (List Char)
  | [], cur => if cur.isEmpty then [] else [cur.reverse]
  | c :: rest, cur =>
    if pyIsSpace c then
      if cur.isEmpty then wsSplitAux rest [] else cur.reverse :: wsSplitAux rest []
    else wsSplitAux rest (c :: cur)

/-- Python s.split() (whitespace split, empty parts discarded). -/
def pySplit (s : String) : List String :=
  (wsSplitAux (chars s) []).map String.mk

/-- Is l1 a prefix of l2 (as a Bool)? -/
def listIsPref : List Char → List Char → Bool
  | [], _ => true
  | _ :: _, [] => false
  | a :: l1, b :: l2 => a = b && listIsPref l1 l2

/-- Python s.startswith(pre). -/
def pyStartsWith (s pre : String) : Bool := listIsPref (chars pre) (chars s)

/-- Python s[n:] (drop the first n characters). -/
def pyDrop (s : String) (n : Nat) : String := String.mk ((chars s).drop n)

/-- Split on a literal separator (Python s.split(sep) for a fixed nonempty
sep), non-overlapping occurrences scanned left to right.  Fuel-based (the
fuel is the length of the input, which bounds the number of steps). -/
def splitOnLitAux (sep : List Char) : Nat → List Char → List Char → List (List Char)
  | 0, rest, cur => [cur.reverse ++ rest]
  | fuel + 1, rest, cur =>
    if listIsPref sep rest then
      cur.reverse :: splitOnLitAux sep fuel (rest.drop sep.length) []
    else
      match rest with
      | [] => [cur.reverse]
      | c :: rest2 => splitOnLitAux sep fuel rest2 (c :: cur)

/-- Python s.split(sep) for a literal nonempty separator. -/
def pySplitOnLit (s sep : String) : List String :=
  ((splitOnLitAux (chars sep) (chars s).length (chars s) []).map String.mk)

/-- ASCII lower-casing of one character (Python str.lower on the ASCII
tokens used in this corpus). -/
def lowerChar (c : Char) : Char :=
  if 'A' ≤ c && c ≤ 'Z' then Char.ofNat (c.toNat + 32) else c

/-- Python s.lower() (ASCII). -/
def pyLower (s : String) : String := String.mk ((chars s).map lowerChar)

/-- ASCII upper-casing of one character. -/
def upperChar (c : Char) : Char :=
  if 'a' ≤ c && c ≤ 'z' then Char.ofNat (c.toNat - 32) else c

/-- Python s.upper() (ASCII). -/
def pyUpper (s : String) : String := String.mk ((chars s).map upperChar)

/-- Value of a digit character. -/
def digitVal (c : Char) : Nat := c.toNat - '0'.toNat

/-- Value of a nonempty all-digit character list, none otherwise. -/
def digitsVal : List Char → Option Nat
  | [] => none
  | l => go l 0
where
  go : List Char → Nat → Option Nat
    | [], acc => some acc
    | c :: rest, acc => if c.isDigit then go rest (acc * 10 + digitVal c) else none

/-- Python int(s): optional whitespace, optional sign, nonempty digit run.
none models ValueError. -/
def pyInt (s : String) : Option Int :=
  match charsStrip (chars s) with
  | [] => none
  | '+' :: rest => (digitsVal rest).map Int.ofNat
  | '-' :: rest => (digitsVal rest).map (fun n => -(n : Int))
  | l => (digitsVal l).map Int.ofNat

/-- Value of a digit list read as a decimal fraction (digits after the
decimal point). -/
def fracVal (l : List Char) : Rat :=
  mkRat ((digitsVal l).getD 0) (10 ^ l.length)

/-- Mantissa of a Python float literal: intpart.fracpart with at least one
digit overall; returns its rational value. -/
def pyFloatMantissa (l : List Char) : Option Rat :=
  let ip := l.takeWhile Char.isDigit
  let rest := l.dropWhile Char.isDigit
  match rest with
  | [] => if ip.isEmpty then none else some (rOfNat ((digitsVal ip).getD 0))
  | '.' :: fp =>
    if fp.all Char.isDigit then
      if ip.isEmpty && fp.isEmpty then none
      else some (rAdd (rOfNat ((digitsVal ip).getD 0)) (fracVal fp))
    else none
  | _ => none

/-- Exponent part of a float literal (after the mantissa): empty, or
e/E followed by an optionally signed digit run. -/
def pyFloatExp : List Char → Option Int
  | [] => some 0
  | c :: rest =>
    if c = 'e' || c = 'E' then
      match rest with
      | '+' :: ds => (digitsVal ds).map Int.ofNat
      | '-' :: ds => (digitsVal ds).map (fun n => -(n : Int))
      | ds => (digitsVal ds).map Int.ofNat
    else none

/-- Python float(s) on plain decimal notation (none models ValueError;
inf/nan and underscore separators are not modelled, they do not occur in
this corpus).  The result is the exact rational value of the literal. -/
def pyFloat (s : String) : Option Rat :=
  let core : List Char → Option Rat := fun l =>
    let mant := l.takeWhile (fun c => c.isDigit || c = '.')
    let rest := l.drop mant.length
    match pyFloatMantissa mant, pyFloatExp rest with
    | some m, some e =>
      some (if e ≥ 0 then rMul m (rOfNat (10 ^ e.toNat))
            else rDiv m (rOfNat (10 ^ (-e).toNat)))
    | _, _ => none
  match charsStrip (chars s) with
  | '+' :: rest => core rest
  | '-' :: rest => (core rest).map Neg.neg
  | l => core l

/-- Python round(x) on a rational: nearest integer, ties to even
(bankers rounding). -/
def pyRound (q : Rat) : Int :=
  let f : Int := rFloor q
  let r : Rat := rSub q (rOfInt f)
  if Rat.blt r (mkRat 1 2) then f
  else if Rat.blt (mkRat 1 2) r then f + 1
  else if f % 2 = 0 then f else f + 1

/-- Decimal digits of a natural number (fuel-based, fuel ≥ number of
digits). -/
def natStrAux : Nat → Nat → List Char
  | 0, _ => []
  | fuel + 1, n =>
    if n < 10 then [Char.ofNat ('0'.toNat + n)]
    else natStrAux fuel (n / 10) ++ [Char.ofNat ('0'.toNat + n % 10)]

/-- Python str(n) for a natural number. -/
def natStr (n : Nat) : String := String.mk (natStrAux (n + 1) n)

/-- Python str(i) for an int. -/
def intStr (i : Int) : String :=
  if i < 0 then "-" ++ natStr i.natAbs else natStr i.toNat


/-!
Section 2: embedding of src/RNGtoJSON.py — the action-code table
(number_to_action), the seat-descriptor parser (parse_position_bb) and the
turn replay simulator (get_active_player).
-/


/-- The literal code dictionary of number_to_action. -/
def actionMapping : List (String × String) :=
  [("0", "Fold"), ("1", "Call"), ("3", "ALLIN"), ("5", "Min"),
   ("14", "Raise 1.5bb"), ("15", "Raise 2bb"), ("16", "Raise 2.5bb"),
   ("17", "Raise 3bb"), ("18", "Raise 3.5bb"), ("19", "Raise 4bb"),
   ("21", "Raise 5bb"), ("22", "Raise 5.5bb"), ("23", "Raise 6bb"),
   ("24", "Raise 6.5bb"), ("28", "Raise 8.5bb")]

/-- Python dict lookup on an association list (keys are distinct). -/
def dictLookup : List (String × String) → String → Option String
  | [], _ => none
  | (k, v) :: rest, s => if s = k then some v else dictLookup rest s

/-- number_to_action from src/RNGtoJSON.py.  none models the ValueError
raised by int(number[2:]) when a token starts with "40" but the rest is
not an integer literal. -/
def number_to_action (number : String) : Option String :=
  match dictLookup actionMapping number with
  | some v => some v
  | none =>
    if pyStartsWith number "40" then
      (pyInt (pyDrop number 2)).map (fun percent => "Raise " ++ intStr percent ++ "%")
    else some number

/-- Rational value of a matched group "digits" or "digits.digits"
(float() cannot fail on these). -/
def decGroupVal (l : List Char) : Rat :=
  let ip := l.takeWhile Char.isDigit
  let rest := l.dropWhile Char.isDigit
  match rest with
  | '.' :: fp => rAdd (rOfNat ((digitsVal ip).getD 0)) (fracVal fp)
  | _ => rOfNat ((digitsVal ip).getD 0)

/-- Is the remainder an acceptable end of the anchored regex?  Python
re.match with a trailing dollar accepts the end of the string or a single
trailing newline. -/
def reEndOk : List Char → Bool
  | [] => true
  | ['\n'] => true
  | _ => false

/-- Matcher for the anchored pattern of parse_position_bb:
digits (with optional .digits), then letters, then an optional single
digit.  Returns (group1, group2) on a match.  The pattern is
deterministic on every input: digit, dot and letter classes are disjoint,
so regex backtracking never changes the outcome. -/
def posMatch (s : String) : Option (List Char × List Char) :=
  let l := chars s
  let ds := l.takeWhile Char.isDigit
  let r1 := l.drop ds.length
  if ds.isEmpty then none
  else
    let (g1, r2) :=
      match r1 with
      | '.' :: t =>
        let fs := t.takeWhile Char.isDigit
        if fs.isEmpty then (ds, r1) else (ds ++ '.' :: fs, t.drop fs.length)
      | _ => (ds, r1)
    let ls := r2.takeWhile Char.isAlpha
    let r3 := r2.drop ls.length
    if ls.isEmpty then none
    else
      match r3 with
      | c :: r4 =>
        if c.isDigit && reEndOk r4 then some (g1, ls ++ [c])
        else if reEndOk r3 then some (g1, ls)
        else none
      | [] => some (g1, ls)

/-- parse_position_bb from src/RNGtoJSON.py: split "14.5HJ" into
("HJ", 14.5); with no match, the whole string with stack 0.  Total — the
Python function cannot raise (float() is applied to a matched digit
group). -/
def parse_position_bb (s : String) : String × Rat :=
  match posMatch s with
  | some (g1, g2) => (String.mk g2, decGroupVal g1)
  | none => (s, 0)

/-- One seat of the replay simulator. -/
structure PSeat where
  pos : String
  stack : Rat
  bet : Rat
  is_folded : Bool
  is_all_in : Bool
deriving DecidableEq, Repr

/-- Default seat (used for out-of-range list access that cannot occur on
the inputs the simulator builds). -/
def defSeat : PSeat := ⟨"", 0, 0, false, false⟩

/-- Step 1 of get_active_player: initial seat states. -/
def init_states (players : List String) : List PSeat :=
  players.map (fun p =>
    let q := parse_position_bb p
    ⟨q.1, q.2, 0, false, false⟩)

/-- Step 2 of get_active_player: post blinds 0.5/1 when there is more
than one seat (big blind is the last seat, small blind the second to
last). -/
def post_blinds (l : List PSeat) : List PSeat :=
  if l.length > 1 then
    let bbi := l.length - 1
    let bb := l.getD bbi defSeat
    let bb_bet := rMin 1 bb.stack
    let l1 := l.set bbi { bb with bet := bb_bet, stack := rSub bb.stack bb_bet }
    let sbi := l.length - 2
    let sb := l1.getD sbi defSeat
    let sb_bet := rMin (mkRat 1 2) sb.stack
    l1.set sbi { sb with bet := sb_bet, stack := rSub sb.stack sb_bet }
  else l

/-- Does the haystack contain the needle as a contiguous substring
(Python in-operator on strings)? -/
def containsSub : List Char → List Char → Bool
  | [], n => n.isEmpty
  | c :: rest, n => listIsPref n (c :: rest) || containsSub rest n

/-- Python sub in s. -/
def strContains (s sub : String) : Bool := containsSub (chars s) (chars sub)

/-- One anchored attempt of the pattern digits (optional .digits)
followed by "bb"; returns the value of the number group. -/
def bbTryAt (l : List Char) : Option Rat :=
  let ds := l.takeWhile Char.isDigit
  let r1 := l.drop ds.length
  if ds.isEmpty then none
  else
    let withFrac : Option Rat :=
      match r1 with
      | '.' :: t =>
        let fs := t.takeWhile Char.isDigit
        if fs.isEmpty then none
        else if listIsPref ['b', 'b'] (t.drop fs.length) then
          some (decGroupVal (ds ++ '.' :: fs))
        else none
      | _ => none
    match withFrac with
    | some v => some v
    | none => if listIsPref ['b', 'b'] r1 then some (decGroupVal ds) else none

/-- re.search of the pattern digits (optional .digits) followed by "bb":
an anchored attempt at every position, left to right, exactly as the
Python regex engine scans.  (Greedy runs in this pattern never need
backtracking: a shortened digit run still faces a digit where a "b" is
required, so the deterministic attempt above is faithful.)  In the source
this is only ever applied to the fixed "Raise Nbb" strings of the code
table. -/
def bbSearch : List Char → Option Rat
  | [] => none
  | c :: rest =>
    match bbTryAt (c :: rest) with
    | some v => some v
    | none => bbSearch rest

/-- Step 4 of get_active_player, the chip effect of one action on the
acting seat (everything except the final highest-bet update, all-in mark
and turn advance). -/
def apply_action (states : List PSeat) (idx : Nat) (highest : Rat)
    (astr : String) : List PSeat :=
  let cur := states.getD idx defSeat
  if astr = "Fold" then
    states.set idx { cur with is_folded := true }
  else if astr = "ALLIN" then
    states.set idx { cur with bet := rAdd cur.bet cur.stack, stack := 0 }
  else if astr = "Call" then
    let to_call := rSub highest cur.bet
    let actual := rMin to_call cur.stack
    states.set idx { cur with bet := rAdd cur.bet actual, stack := rSub cur.stack actual }
  else if strContains astr "Raise" && strContains astr "bb" then
    match bbSearch (chars astr) with
    | some target =>
      let to_add := rSub target cur.bet
      let actual := rMin to_add cur.stack
      states.set idx { cur with bet := rAdd cur.bet actual, stack := rSub cur.stack actual }
    | none => states
  else if astr = "Min" then
    let prev := states.getD ((idx + states.length - 1) % states.length) defSeat
    let last_raise := rSub highest prev.bet
    let min_raise_to := rAdd highest last_raise
    let to_add := rSub min_raise_to cur.bet
    let actual := rMin to_add cur.stack
    states.set idx { cur with bet := rAdd cur.bet actual, stack := rSub cur.stack actual }
  else states

/-- Can this seat still act? -/
def eligible (p : PSeat) : Bool := !p.is_folded && !p.is_all_in

/-- Step 5 of get_active_player: the bounded search for the next seat to
act, checking (idx+1) % n, (idx+2) % n, ... for n iterations. -/
def find_next_go (states : List PSeat) : Nat → Nat → Option Nat
  | _, 0 => none
  | cur, fuel + 1 =>
    let j := (cur + 1) % states.length
    if eligible (states.getD j defSeat) then some j
    else find_next_go states j fuel

/-- Find the next seat that is neither folded nor all-in. -/
def find_next (states : List PSeat) (idx : Nat) : Option Nat :=
  find_next_go states idx states.length

/-- One iteration of the action loop: apply the decoded action, update
the highest bet, mark the actor all-in when its stack is depleted, and
search for the next actor.  Returns the new states, the new highest bet
and the search result. -/
def replay_step (states : List PSeat) (idx : Nat) (highest : Rat)
    (astr : String) : List PSeat × Rat × Option Nat :=
  let s1 := apply_action states idx highest astr
  let cur := s1.getD idx defSeat
  let h2 := rMax highest cur.bet
  let s2 := if cur.stack ≤ 0 then s1.set idx { cur with stack := 0, is_all_in := true } else s1
  (s2, h2, find_next s2 idx)

/-- The action loop of get_active_player.  none models the ValueError of
number_to_action; some "" is the early "action is over" return. -/
def replay_loop : List PSeat → Nat → Rat → List Int → Option String
  | states, idx, _, [] => some (states.getD idx defSeat).pos
  | states, idx, highest, code :: rest =>
    match number_to_action (intStr code) with
    | none => none
    | some astr =>
      let r := replay_step states idx highest astr
      match r.2.2 with
      | none => some ""
      | some j => replay_loop r.1 j r.2.1 rest

/-- get_active_player from src/RNGtoJSON.py. -/
def get_active_player (node : List Int) (players : List String) : Option String :=
  if players = [] then some ""
  else replay_loop (post_blinds (init_states players)) 0 1 node


/-!
Section 3: the replay model exactly as the specification words it
(section 4.4 of the spec): an alive-seat list with a cursor; a decoded
Fold removes the seat at the cursor (wrapping the cursor to 0 when it
falls off the end), any other action advances the cursor to the next
alive seat modulo the current alive count.  This definition follows the
spec, not the source; it exists to be compared against
get_active_player.
-/


/-- Does this integer code decode to Fold?  (Shared decode table, as the
spec requires.) -/
def isFoldCode (code : Int) : Bool := number_to_action (intStr code) = some "Fold"

/-- The loop of the simple fold/advance replay model of spec section 4.4. -/
def spec_replay_go : List String → Nat → List Int → String
  | alive, cursor, [] => alive.getD cursor ""
  | alive, cursor, code :: rest =>
    if isFoldCode code then
      let alive2 := alive.eraseIdx cursor
      if alive2.isEmpty then ""
      else spec_replay_go alive2 (if cursor ≥ alive2.length then 0 else cursor) rest
    else
      spec_replay_go alive ((cursor + 1) % alive.length) rest

/-- The simple fold/advance replay model of spec section 4.4 (seat labels
obtained with the shared seat parser). -/
def spec_replay (node : List Int) (seats : List String) : String :=
  spec_replay_go (seats.map (fun p => (parse_position_bb p).1)) 0 node

/-- All seats free of the all-in flag. -/
def no_allin (states : List PSeat) : Bool := states.all (fun p => !p.is_all_in)

/-- Does a whole replay run stay free of all-in seats (and of decode
errors)?  Checked on the same step function as the simulator itself. -/
def allin_free_run : List PSeat → Nat → Rat → List Int → Bool
  | states, _, _, [] => no_allin states
  | states, idx, highest, code :: rest =>
    match number_to_action (intStr code) with
    | none => false
    | some astr =>
      let r := replay_step states idx highest astr
      no_allin r.1 &&
        match r.2.2 with
        | none => true
        | some j => allin_free_run r.1 j r.2.1 rest


/-!
Section 4: embedding of the betting-tree enumerator of
src/pio_headless_from_block.py (tree construction only; the process
plumbing around it is out of scope of the claims).  Node fields, helper
functions and the depth-first loop mirror the source one for one; the
while loop takes a fuel argument.
-/


/-- The Node named tuple of pio_headless_from_block.py. -/
structure Node where
  oop : Int
  ip : Int
  street : Int
  actor : String
  last_agg_prev : Option String
  checks_this_street : Int
  live : String
  raises_done : Int
  last_bettor : Option String
deriving DecidableEq, Repr

/-- A key/value configuration block (Python dict of strings). -/
def KV := List (String × String)

/-- kv.get(key, default). -/
def kvGetD (kv : KV) (key default : String) : String :=
  (dictLookup kv key).getD default

def _cur_pot (dead : Int) (n : Node) : Int := dead + n.oop + n.ip

def _amt_pct (dead : Int) (n : Node) (pct : Rat) : Int :=
  max 1 (pyRound (rMul (rOfInt (_cur_pot dead n)) (rDiv pct (rOfNat 100))))

def _cap_to_eff (x eff : Int) : Int := if eff ≤ 0 then x else min x eff

def _is_allin (n : Node) (eff : Int) : Bool :=
  eff > 0 && (n.oop ≥ eff || n.ip ≥ eff)

def _spr (dead : Int) (n : Node) (eff : Int) (facing : String) : Rat :=
  let pot_now : Int := max 1 (_cur_pot dead n)
  let stack_left : Int := max 0 (eff - (if facing = "OOP" then n.oop else n.ip))
  rDiv (rOfInt stack_left) (rOfInt pot_now)

def _spr_allows_shove (dead : Int) (n : Node) (eff : Int)
    (spr_limit : Option Rat) : Bool :=
  if eff ≤ 0 then false
  else
    match spr_limit with
    | none => true
    | some lim => _spr dead n eff n.actor ≤ lim

/-- Append a commitment pair to a path, forcing monotonicity with max
(the Python path is never empty; the default pair is unreachable). -/
def _append (path : List (Int × Int)) (o i : Int) : List (Int × Int) :=
  let p := path.getLast?.getD (0, 0)
  path ++ [(max p.1 o, max p.2 i)]

def _apply_check (n : Node) : Node :=
  let next_actor := if n.actor = "OOP" then "IP" else "OOP"
  ⟨n.oop, n.ip, n.street, next_actor, n.last_agg_prev,
   n.checks_this_street + 1, "none", 0, none⟩

def _advance_street (n : Node) : Node :=
  ⟨n.oop, n.ip, n.street + 1, "OOP",
   (match n.last_bettor with
    | some b => some b
    | none => n.last_agg_prev),
   0, "none", 0, none⟩

def _bet (dead : Int) (n : Node) (pct : Rat) (eff : Int) : Option Node :=
  if _is_allin n eff then none
  else
    let b := _amt_pct dead n pct
    if n.actor = "OOP" then
      some ⟨_cap_to_eff (n.oop + b) eff, n.ip, n.street, "IP",
            n.last_agg_prev, 0, "bet_oop", 0, some "OOP"⟩
    else
      some ⟨n.oop, _cap_to_eff (n.ip + b) eff, n.street, "OOP",
            n.last_agg_prev, 0, "bet_ip", 0, some "IP"⟩

def _call (n : Node) (eff : Int) : Node :=
  if n.last_bettor = some "OOP" then
    ⟨n.oop, _cap_to_eff n.oop eff, n.street, n.actor, n.last_agg_prev,
     0, "none", 0, n.last_bettor⟩
  else
    ⟨_cap_to_eff n.ip eff, n.ip, n.street, n.actor, n.last_agg_prev,
     0, "none", 0, n.last_bettor⟩

def _raise (dead : Int) (n : Node) (pct : Rat) (eff : Int) : Option Node :=
  if _is_allin n eff then none
  else
    let r := _amt_pct dead n pct
    if n.actor = "OOP" then
      some ⟨_cap_to_eff (n.oop + r) eff, n.ip, n.street, "IP",
            n.last_agg_prev, 0, "raise_k", n.raises_done + 1, some "OOP"⟩
    else
      some ⟨n.oop, _cap_to_eff (n.ip + r) eff, n.street, "OOP",
            n.last_agg_prev, 0, "raise_k", n.raises_done + 1, some "IP"⟩

def _shove (n : Node) (eff : Int) : Node :=
  ⟨eff, eff, n.street, (if n.actor = "OOP" then "IP" else "OOP"),
   n.last_agg_prev, 0, "none", 0, some n.actor⟩

def _flatten (path : List (Int × Int)) : List Int :=
  if path.length ≤ 1 then [0, 0]
  else (path.drop 1).flatMap (fun p => [p.1, p.2])

/-- Parse the three components of a header triplet (try int(parts[i]) for
i = 0, 1, 2; an index or value error yields none). -/
def firstThreeInts (parts : List String) : Option (Int × Int × Int) :=
  match parts.get? 0, parts.get? 1, parts.get? 2 with
  | some p0, some p1, some p2 =>
    match pyInt p0, pyInt p1, pyInt p2 with
    | some a, some b, some c => some (a, b, c)
    | _, _, _ => none
  | _, _, _ => none

/-- re.split on runs of newline characters after str.strip, as applied in
_get_int_triplet: the stripped string has no leading or trailing newline
run, so splitting on single newline characters and discarding empty
pieces (which only arise inside a run) is the same; an all-whitespace
input strips to "" whose re.split gives one empty part that then fails
int() --- the empty parts list fails the index lookup, the same outcome. -/
def reSplitNlRuns (s : String) : List String :=
  ((chars s).splitOnP (fun c => c = '\n' || c = '\r')).map String.mk
    |>.filter (fun p => p ≠ "")

/-- The parts list of _get_int_triplet: split on the two-character
literal backslash-n; when that does not give exactly three parts, re-split
the stripped value on real newline runs. -/
def capParts (s : String) : List String :=
  let parts0 := pySplitOnLit s "\\n"
  if parts0.length ≠ 3 then reSplitNlRuns (pyStrip s) else parts0

/-- _get_int_triplet from pio_headless_from_block.py. -/
def _get_int_triplet (s : String) (default : Int × Int × Int) : Int × Int × Int :=
  if s = "" then default
  else
    match firstThreeInts (capParts s) with
    | some t => t
    | none => default

/-- _street_caps from pio_headless_from_block.py. -/
def _street_caps (kv : KV) : Int × Int × Int :=
  _get_int_triplet (kvGetD kv "CapPerStreet" "3\\n3\\n3") (3, 3, 3)

def _can_oop_donk_on (street : Int) (last_agg_prev : Option String) : Bool :=
  last_agg_prev = some "IP"

/-- The parsed sizing configuration (_parse_sizes output). -/
structure Sizes where
  flop_ip_bets : List Rat
  flop_oop_donks : List Rat
  turn_ip_bets : List Rat
  turn_oop_donks : List Rat
  river_ip_bets : List Rat
  river_oop_donks : List Rat
  flop_ip_raises : List String
  flop_oop_raises : List String
  turn_ip_raises : List String
  turn_oop_raises : List String
  river_ip_raises : List String
  river_oop_raises : List String
  flop_add_ai : Bool
  turn_add_ai : Bool
  river_add_ai : Bool
deriving DecidableEq, Repr

/-- The floats(key) helper of _parse_sizes: none models the ValueError of
float() on a malformed bet-size token, which aborts _parse_sizes and with
it the whole enumeration. -/
def floatsOf (kv : KV) (key : String) : Option (List Rat) :=
  let s := pyStrip (kvGetD kv key "")
  if s = "" then some []
  else (pySplit s).traverse pyFloat

/-- The raises(key) helper of _parse_sizes (kept as raw tokens, never
raises). -/
def raisesOf (kv : KV) (key : String) : List String :=
  let s := pyStrip (kvGetD kv key "")
  if s = "" then [] else pySplit s

/-- The AddAllin flag of one street. -/
def flagOf (kv : KV) (key : String) : Bool :=
  pyLower (pyStrip (kvGetD kv key "")) = "true"

/-- _parse_sizes from pio_headless_from_block.py. -/
def _parse_sizes (kv : KV) : Option Sizes :=
  match floatsOf kv "FlopConfigIP.BetSize", floatsOf kv "FlopConfig.DonkBetSize",
        floatsOf kv "TurnConfigIP.BetSize", floatsOf kv "TurnConfig.DonkBetSize",
        floatsOf kv "RiverConfigIP.BetSize", floatsOf kv "RiverConfig.DonkBetSize" with
  | some fb, some fd, some tb, some td, some rb, some rd =>
    some
      { flop_ip_bets := fb, flop_oop_donks := fd,
        turn_ip_bets := tb, turn_oop_donks := td,
        river_ip_bets := rb, river_oop_donks := rd,
        flop_ip_raises := raisesOf kv "FlopConfigIP.RaiseSize",
        flop_oop_raises := raisesOf kv "FlopConfig.RaiseSize",
        turn_ip_raises := raisesOf kv "TurnConfigIP.RaiseSize",
        turn_oop_raises := raisesOf kv "TurnConfig.RaiseSize",
        river_ip_raises := raisesOf kv "RiverConfigIP.RaiseSize",
        river_oop_raises := raisesOf kv "RiverConfig.RaiseSize",
        flop_add_ai := flagOf kv "FlopConfig.AddAllin",
        turn_add_ai := flagOf kv "TurnConfig.AddAllin",
        river_add_ai := flagOf kv "RiverConfig.AddAllin" }
  | _, _, _, _, _, _ => none

def _mirror_if_empty (vals fallback : List Rat) : List Rat :=
  if vals.isEmpty then fallback else vals

/-- The SPR ceiling: AddAllinOnlyIfLessThanThisTimesThePot / 100, none
when absent or unparsable. -/
def sprLimitOf (kv : KV) : Option Rat :=
  let spr_raw := pyStrip (kvGetD kv "AddAllinOnlyIfLessThanThisTimesThePot" "")
  if spr_raw = "" then none
  else
    match pyFloat spr_raw with
    | some v => some (rDiv v (rOfNat 100))
    | none => none

/-- The preflop aggressor key, defaulted and normalised to OOP or IP. -/
def pfaOf (kv : KV) : String :=
  let raw := kvGetD kv "PreflopAggressor" "IP"
  let p := pyUpper (if raw = "" then "IP" else raw)
  if p = "OOP" || p = "IP" then p else "IP"

/-- Everything build_action_tree computes before its DFS loop. -/
structure Ctx where
  dead : Int
  eff : Int
  sz : Sizes
  cap_flop : Int
  cap_turn : Int
  cap_river : Int
  spr_limit : Option Rat
deriving DecidableEq, Repr

def cap_for (ctx : Ctx) (st : Int) : Int :=
  if st = 1 then ctx.cap_flop else if st = 2 then ctx.cap_turn else ctx.cap_river

def raise_sizes_for (sz : Sizes) (st : Int) (raiser : String) : List String :=
  if st = 1 then
    if raiser = "OOP" then sz.flop_oop_raises else sz.flop_ip_raises
  else if st = 2 then
    if raiser = "OOP" then sz.turn_oop_raises else sz.turn_ip_raises
  else
    if raiser = "OOP" then sz.river_oop_raises else sz.river_ip_raises

def bet_sizes_for (sz : Sizes) (st : Int) (bettor : String)
    (last_agg_prev : Option String) : List Rat :=
  if st = 1 then
    if bettor = "IP" then sz.flop_ip_bets
    else if _can_oop_donk_on st last_agg_prev then sz.flop_oop_donks else []
  else if st = 2 then
    if bettor = "IP" then sz.turn_ip_bets
    else if _can_oop_donk_on st last_agg_prev then sz.turn_oop_donks else []
  else
    if bettor = "IP" then sz.river_ip_bets
    else if _can_oop_donk_on st last_agg_prev then sz.river_oop_donks else []

/-- add_allin_allowed from build_action_tree, including the final two
disjuncts of the source (spr_limit is not None, or spr_limit is None)
verbatim. -/
def add_allin_allowed (ctx : Ctx) (st : Int) : Bool :=
  (st = 1 && ctx.sz.flop_add_ai) || (st = 2 && ctx.sz.turn_add_ai) ||
    (st = 3 && ctx.sz.river_add_ai) || ctx.spr_limit.isSome || ctx.spr_limit.isNone

/-- The skip conditions of the raise-token loop: a literal "a" is skipped
(the shove branch covers it) and an unparsable token is skipped by the
try/except; otherwise the token yields its float value. -/
def tokVal (tok : String) : Option Rat :=
  if pyLower tok = "a" then none else pyFloat tok

/-- Branches pushed for the raise tokens when facing a live wager. -/
def raisePushes (ctx : Ctx) (n : Node) (path : List (Int × Int)) :
    List (Node × List (Int × Int)) :=
  if n.raises_done < cap_for ctx n.street then
    (raise_sizes_for ctx.sz n.street n.actor).flatMap (fun tok =>
      match tokVal tok with
      | none => []
      | some pct =>
        match _raise ctx.dead n pct ctx.eff with
        | none => []
        | some nr => [(nr, _append path nr.oop nr.ip)])
  else []

/-- Branches pushed for the open-bet sizes when no bet is live: each bet
node together with its pre-computed call continuation (call, then street
advance). -/
def betPushes (ctx : Ctx) (n : Node) (path : List (Int × Int)) :
    List (Node × List (Int × Int)) :=
  (bet_sizes_for ctx.sz n.street n.actor n.last_agg_prev).flatMap (fun pct =>
    match _bet ctx.dead n pct ctx.eff with
    | none => []
    | some nb =>
      let call_node := _call nb ctx.eff
      let after_call : Node :=
        ⟨call_node.oop, call_node.ip, call_node.street, call_node.actor,
         nb.last_bettor, 0, "none", 0, nb.last_bettor⟩
      let adv := _advance_street after_call
      [(nb, _append path nb.oop nb.ip),
       (adv, _append (_append path nb.oop nb.ip) call_node.oop call_node.ip)])

/-- All branches pushed from one non-terminal decision node, in the order
the Python loop appends them (the DFS pops the last one first). -/
def expandPushes (ctx : Ctx) (n : Node) (path : List (Int × Int)) :
    List (Node × List (Int × Int)) :=
  (if add_allin_allowed ctx n.street && _spr_allows_shove ctx.dead n ctx.eff ctx.spr_limit then
    let ns := _shove n ctx.eff
    [(ns, _append path ns.oop ns.ip)]
  else []) ++
  (if n.live = "none" then
    let ck := _apply_check n
    (ck, _append path ck.oop ck.ip) :: betPushes ctx n path
  else
    let call_node := _call n ctx.eff
    let adv := _advance_street call_node
    (adv, _append path call_node.oop call_node.ip) :: raisePushes ctx n path)

/-- The while loop of build_action_tree: explicit stack (head is the top),
visited set of full node tuples, accumulated flattened result lines.
none means the fuel ran out. -/
def dfsLoop (ctx : Ctx) : Nat → List (Node × List (Int × Int)) → List Node →
    List (List Int) → Option (List (List Int))
  | _, [], _, acc => some acc
  | 0, _ :: _, _, _ => none
  | fuel + 1, (n, path) :: rest, seen, acc =>
    if n ∈ seen then dfsLoop ctx fuel rest seen acc
    else
      let seen2 := n :: seen
      if _is_allin n ctx.eff || n.street > 3 then
        dfsLoop ctx fuel rest seen2 (acc ++ [_flatten path])
      else if n.live = "none" && n.checks_this_street ≥ 2 then
        let nx := _advance_street n
        dfsLoop ctx fuel ((nx, _append path nx.oop nx.ip) :: rest) seen2 acc
      else
        dfsLoop ctx fuel ((expandPushes ctx n path).reverse ++ rest) seen2 acc

/-- Number of zero entries of a flattened line. -/
def zerosCount (ln : List Int) : Nat := ln.countP (fun v => v = 0)

/-- The final pairwise monotonicity test of build_action_tree, walking the
flattened line two entries at a time (all emitted lines have even
length, on which this equals the Python index loop). -/
def monoOK : List Int → Bool
  | a :: b :: c :: d :: rest => (a ≤ c && b ≤ d) && monoOK (c :: d :: rest)
  | _ => true

/-- The dedup / zero-prune / monotonicity post-processing loop. -/
def ppLoop : List (List Int) → List (List Int) → List (List Int)
  | [], _ => []
  | ln :: rest, seenL =>
    if ln ∈ seenL then ppLoop rest seenL
    else if zerosCount ln > 6 then ppLoop rest seenL
    else if !monoOK ln then ppLoop rest seenL
    else ln :: ppLoop rest (ln :: seenL)

def postprocess (results : List (List Int)) : List (List Int) :=
  ppLoop results []

/-- The context build_action_tree derives from a configuration (none when
_parse_sizes raises on a malformed bet-size token). -/
def ctxOf (kv : KV) (dead eff : Int) : Option Ctx :=
  match _parse_sizes kv with
  | none => none
  | some sz0 =>
    let sz :=
      { sz0 with
        turn_oop_donks := _mirror_if_empty sz0.turn_oop_donks sz0.turn_ip_bets,
        river_oop_donks := _mirror_if_empty sz0.river_oop_donks sz0.river_ip_bets }
    let caps := _street_caps kv
    some ⟨dead, eff, sz, caps.1, caps.2.1, caps.2.2, sprLimitOf kv⟩

/-- The root node of the DFS. -/
def startNode (kv : KV) : Node :=
  ⟨0, 0, 1, "OOP", some (pfaOf kv), 0, "none", 0, none⟩

/-- build_action_tree from pio_headless_from_block.py.  none models
either the ValueError of _parse_sizes or exhausted fuel. -/
def build_action_tree (fuel : Nat) (kv : KV) (dead eff : Int) :
    Option (List (List Int)) :=
  match ctxOf kv dead eff with
  | none => none
  | some ctx =>
    match dfsLoop ctx fuel [(startNode kv, [(0, 0)])] [] [] with
    | none => none
    | some results => some (postprocess results)

/-- The all-in gate exactly as the specification words it (section 4.2):
the per-street allow-all-in flag, or an unconditional allowance when no
SPR ceiling is configured; and, when a ceiling is configured, the SPR
bound.  This definition follows the spec, not the source; it exists to be
compared against the gate of the source. -/
def spec_allin_gate (ctx : Ctx) (n : Node) : Bool :=
  let streetFlag :=
    (n.street = 1 && ctx.sz.flop_add_ai) || (n.street = 2 && ctx.sz.turn_add_ai) ||
      (n.street = 3 && ctx.sz.river_add_ai)
  (streetFlag || ctx.spr_limit.isNone) &&
    (match ctx.spr_limit with
     | none => true
     | some lim => _spr ctx.dead n ctx.eff n.actor ≤ lim)


/-!
Section 5: claim theorems.
-/


/-- Claim C8: the decode table maps "0" to Fold, "1" to Call, "40075" to
raise-to-75-percent-of-pot, and passes the unknown token "999" through
unchanged rather than raising. -/
theorem claim_C8_decode_examples :
    number_to_action "0" = some "Fold" ∧ number_to_action "1" = some "Call" ∧
      number_to_action "40075" = some "Raise 75%" ∧
      number_to_action "999" = some "999" := by
  refine ⟨rfl, rfl, ?_, rfl⟩
  decide

/-- Claim C10: whenever the seat-descriptor pattern does not match,
parse_position_bb returns the whole string as the position label with a
stack of 0 (and, being a total function, it never raises). -/
theorem claim_C10_no_match_fallback (s : String) (h : posMatch s = none) :
    parse_position_bb s = (s, 0) := by
  unfold parse_position_bb
  rw [h]

/-- Witness for claim C10 at the digitless token "UTG1". -/
theorem claim_C10_witness :
    posMatch "UTG1" = none ∧ parse_position_bb "UTG1" = ("UTG1", 0) :=
  ⟨by decide, claim_C10_no_match_fallback "UTG1" (by decide)⟩

/-- Claim C3, counterexample: the token "40" (reserved prefix with no
digits after it) makes number_to_action raise a ValueError, so decode is
not total. -/
theorem claim_C3_counterexample : number_to_action "40" = none := by decide

/-- Claim C3, amended: decode returns a result for every token except
those that begin with the reserved prefix "40" and whose remaining
characters do not parse as an integer; on these int() raises. -/
theorem claim_C3_amended (s : String) :
    number_to_action s = none ↔
      pyStartsWith s "40" = true ∧ pyInt (pyDrop s 2) = none := by
  cases hS : pyStartsWith s "40" with
  | false =>
    unfold number_to_action
    cases hL : dictLookup actionMapping s <;> simp [hS]
  | true =>
    have key_ne : ∀ k : String, pyStartsWith k "40" = false → ¬s = k := by
      intro k hk heq
      rw [heq, hk] at hS
      cases hS
    have hL : dictLookup actionMapping s = none := by
      simp only [actionMapping, dictLookup]
      rw [if_neg (key_ne "0" (by decide)), if_neg (key_ne "1" (by decide)),
          if_neg (key_ne "3" (by decide)), if_neg (key_ne "5" (by decide)),
          if_neg (key_ne "14" (by decide)), if_neg (key_ne "15" (by decide)),
          if_neg (key_ne "16" (by decide)), if_neg (key_ne "17" (by decide)),
          if_neg (key_ne "18" (by decide)), if_neg (key_ne "19" (by decide)),
          if_neg (key_ne "21" (by decide)), if_neg (key_ne "22" (by decide)),
          if_neg (key_ne "23" (by decide)), if_neg (key_ne "24" (by decide)),
          if_neg (key_ne "28" (by decide))]
    unfold number_to_action
    rw [hL]
    cases hI : pyInt (pyDrop s 2) <;> simp [hS, hI]

/-- Claim C4, counterexample: with a nonempty configured flop donk list
but a previous-street aggressor other than IP, OOP is offered no flop
open-bet at all — flop donking is not controlled purely by the
configured list. -/
theorem claim_C4_counterexample :
    bet_sizes_for ⟨[], [50], [], [], [], [], [], [], [], [], [], [], false, false, false⟩
        1 "OOP" (some "OOP") = [] ∧
      Sizes.flop_oop_donks
        ⟨[], [50], [], [], [], [], [], [], [], [], [], [], false, false, false⟩ = [50] ∧
      ([50] : List Rat) ≠ [] := by
  refine ⟨by decide, rfl, by decide⟩

/-- Claim C4, amended: when facing no wager, IP is always offered its
configured bet list, while OOP is offered its configured donk list only
when the previous-street aggressor is IP — on the flop exactly as on the
turn and river. -/
theorem claim_C4_amended (sz : Sizes) (lap : Option String) :
    bet_sizes_for sz 1 "IP" lap = sz.flop_ip_bets ∧
      bet_sizes_for sz 2 "IP" lap = sz.turn_ip_bets ∧
      bet_sizes_for sz 3 "IP" lap = sz.river_ip_bets ∧
      bet_sizes_for sz 1 "OOP" lap =
        (if lap = some "IP" then sz.flop_oop_donks else []) ∧
      bet_sizes_for sz 2 "OOP" lap =
        (if lap = some "IP" then sz.turn_oop_donks else []) ∧
      bet_sizes_for sz 3 "OOP" lap =
        (if lap = some "IP" then sz.river_oop_donks else []) := by
  refine ⟨?_, ?_, ?_, ?_, ?_, ?_⟩ <;>
    simp [bet_sizes_for, _can_oop_donk_on]

/-- Claim C9, counterexample: the value "1 newline 2 newline 3 newline 4"
splits into four parts, not three, yet the caps become (1, 2, 3) rather
than the default (3, 3, 3) — the first three parts are used and the rest
ignored. -/
theorem claim_C9_counterexample :
    (capParts "1\n2\n3\n4").length = 4 ∧
      _street_caps [("CapPerStreet", "1\n2\n3\n4")] = (1, 2, 3) ∧
      ((1, 2, 3) : Int × Int × Int) ≠ (3, 3, 3) := by
  refine ⟨by decide, by decide, by decide⟩

/-- Claim C9, amended: the caps default to 3 for each street when the
CapPerStreet key is absent, or when the first three parts of its split do
not all parse as integers; a value with more than three parts whose first
three do parse uses those three instead. -/
theorem claim_C9_amended (kv : KV)
    (h : dictLookup kv "CapPerStreet" = none ∨
      firstThreeInts (capParts (kvGetD kv "CapPerStreet" "3\\n3\\n3")) = none) :
    _street_caps kv = (3, 3, 3) := by
  unfold _street_caps _get_int_triplet
  rcases h with h | h
  · have hv : kvGetD kv "CapPerStreet" "3\\n3\\n3" = "3\\n3\\n3" := by
      unfold kvGetD
      rw [h]
      rfl
    rw [hv]
    decide
  · rw [h]
    split <;> rfl

/-- Witness for claim C9 on a configuration without the key. -/
theorem claim_C9_witness :
    dictLookup ([] : KV) "CapPerStreet" = none ∧
      _street_caps ([] : KV) = (3, 3, 3) :=
  ⟨rfl, claim_C9_amended [] (Or.inl rfl)⟩



/-- The source gate add_allin_allowed is a tautology: its last two
disjuncts are "spr_limit is not None or spr_limit is None". -/
theorem add_allin_allowed_true (ctx : Ctx) (st : Int) :
    add_allin_allowed ctx st = true := by
  unfold add_allin_allowed
  cases h : ctx.spr_limit <;> simp [h]

/-- Characterisation of _spr_allows_shove. -/
theorem spr_allows_iff (dead : Int) (n : Node) (eff : Int) (l : Option Rat) :
    _spr_allows_shove dead n eff l = true ↔
      0 < eff ∧ ∀ lim, l = some lim → _spr dead n eff n.actor ≤ lim := by
  unfold _spr_allows_shove
  split_ifs with h
  · simp only [Bool.false_eq_true, false_iff]
    intro hc
    omega
  · cases l with
    | none => simp; omega
    | some lim => simp; omega

/-- A node produced by _bet carries a bet_oop or bet_ip live tag. -/
theorem _bet_shape (dead : Int) (n : Node) (pct : Rat) (eff : Int) (nb : Node)
    (h : _bet dead n pct eff = some nb) :
    (nb.live = "bet_oop" ∨ nb.live = "bet_ip") ∧ nb.street = n.street := by
  unfold _bet at h
  split_ifs at h with h1 h2
  · injection h with h
    subst h
    exact ⟨Or.inl rfl, rfl⟩
  · injection h with h
    subst h
    exact ⟨Or.inr rfl, rfl⟩

/-- A node produced by _raise carries the raise_k live tag. -/
theorem _raise_shape (dead : Int) (n : Node) (pct : Rat) (eff : Int) (nr : Node)
    (h : _raise dead n pct eff = some nr) : nr.live = "raise_k" := by
  unfold _raise at h
  split_ifs at h with h1 h2 <;> injection h with h <;> subst h <;> rfl

/-- _call keeps the street. -/
theorem _call_street (n : Node) (eff : Int) : (_call n eff).street = n.street := by
  unfold _call
  split <;> rfl

/-- Every branch of betPushes is either a bet node (live bet tag) or the
street-advanced call continuation. -/
theorem betPushes_shape (ctx : Ctx) (n : Node) (path : List (Int × Int))
    (x : Node × List (Int × Int)) (hx : x ∈ betPushes ctx n path) :
    (x.1.live = "bet_oop" ∨ x.1.live = "bet_ip") ∨ x.1.street = n.street + 1 := by
  unfold betPushes at hx
  rw [List.mem_flatMap] at hx
  obtain ⟨pct, _, hx⟩ := hx
  cases hb : _bet ctx.dead n pct ctx.eff with
  | none => rw [hb] at hx; cases hx
  | some nb =>
    rw [hb] at hx
    obtain ⟨h1, h2⟩ := _bet_shape ctx.dead n pct ctx.eff nb hb
    simp only [List.mem_cons, List.mem_singleton] at hx
    rcases hx with hx | hx | hx
    · subst hx; exact Or.inl h1
    · subst hx
      right
      show ((_call nb ctx.eff).street + 1 : Int) = n.street + 1
      rw [_call_street, h2]
    · cases hx

/-- Every branch of raisePushes is a raise node. -/
theorem raisePushes_shape (ctx : Ctx) (n : Node) (path : List (Int × Int))
    (x : Node × List (Int × Int)) (hx : x ∈ raisePushes ctx n path) :
    x.1.live = "raise_k" := by
  unfold raisePushes at hx
  split_ifs at hx with h
  · rw [List.mem_flatMap] at hx
    obtain ⟨tok, _, hx⟩ := hx
    cases ht : tokVal tok with
    | none => rw [ht] at hx; cases hx
    | some pct =>
      rw [ht] at hx
      dsimp only at hx
      cases hr : _raise ctx.dead n pct ctx.eff with
      | none => rw [hr] at hx; cases hx
      | some nr =>
        rw [hr] at hx
        simp only [List.mem_singleton] at hx
        subst hx
        exact _raise_shape ctx.dead n pct ctx.eff nr hr
  · cases hx

/-- Claim C2, amended: at any node and path, the shove branch appears
among the pushed branches exactly when the effective stack is positive
and the SPR condition holds (no ceiling configured, or the actor's SPR is
at most the ceiling).  The per-street allow-all-in flag plays no role,
because the source gate add_allin_allowed is tautologically true. -/
theorem claim_C2_amended (ctx : Ctx) (n : Node) (path : List (Int × Int)) :
    _shove n ctx.eff ∈ (expandPushes ctx n path).map Prod.fst ↔
      0 < ctx.eff ∧
        ∀ lim, ctx.spr_limit = some lim → _spr ctx.dead n ctx.eff n.actor ≤ lim := by
  rw [← spr_allows_iff ctx.dead n ctx.eff ctx.spr_limit]
  unfold expandPushes
  rw [add_allin_allowed_true]
  have hrest : _shove n ctx.eff ∉
      ((if n.live = "none" then
          let ck := _apply_check n
          (ck, _append path ck.oop ck.ip) :: betPushes ctx n path
        else
          let call_node := _call n ctx.eff
          let adv := _advance_street call_node
          (adv, _append path call_node.oop call_node.ip) ::
            raisePushes ctx n path).map Prod.fst) := by
    intro hmem
    rw [List.mem_map] at hmem
    obtain ⟨x, hx, hfst⟩ := hmem
    split_ifs at hx with hlive
    · simp only [List.mem_cons] at hx
      rcases hx with hx | hx
      · subst hx
        have h2 := congrArg Node.last_bettor hfst
        simp only [_apply_check, _shove] at h2
        cases h2
      · have := betPushes_shape ctx n path x hx
        rw [hfst] at this
        rcases this with h1 | h1
        · simp [_shove] at h1
        · simp only [_shove] at h1
          omega
    · simp only [List.mem_cons] at hx
      rcases hx with hx | hx
      · subst hx
        have h2 := congrArg Node.street hfst
        simp only [_advance_street, _shove] at h2
        rw [_call_street] at h2
        omega
      · have := raisePushes_shape ctx n path x hx
        rw [hfst] at this
        simp [_shove] at this
  cases hG : _spr_allows_shove ctx.dead n ctx.eff ctx.spr_limit with
  | true =>
    refine iff_of_true ?_ rfl
    rw [if_pos (by decide), List.map_append, List.mem_append]
    left
    simp
  | false =>
    refine iff_of_false ?_ (by simp)
    rw [if_neg (by decide), List.nil_append]
    exact hrest





/-- Claim C2, counterexample: with an SPR ceiling of 1 (configured as
100 percent), no per-street allow-all-in flag set, dead pot 1 and
effective stack 1, the all-in gate as the specification states it is
false at the root node, yet the enumeration offers the shove branch
there: the all-in line [1, 1] is produced. -/
theorem claim_C2_counterexample :
    ((ctxOf [("AddAllinOnlyIfLessThanThisTimesThePot", "100")] 1 1).map (fun ctx =>
        spec_allin_gate ctx (startNode [("AddAllinOnlyIfLessThanThisTimesThePot", "100")]))
      = some false) ∧
      [1, 1] ∈
        (build_action_tree 100
          [("AddAllinOnlyIfLessThanThisTimesThePot", "100")] 1 1).getD [] :=
  ⟨by decide, by decide⟩

/-- Claim C6, counterexample: with effective stack 0 (_cap_to_eff caps
nothing), a flop bet of 50 percent of a dead pot of 2 yields a line whose
commitments reach 1, which exceeds the configured effective stack 0. -/
theorem claim_C6_counterexample :
    [0, 0, 0, 1, 1, 1, 1, 1, 1, 1, 1, 1, 1, 1, 1, 1, 1, 1] ∈
        (build_action_tree 200 [("FlopConfigIP.BetSize", "50")] 2 0).getD [] ∧
      (1 : Int) ∈ [0, 0, 0, 1, 1, 1, 1, 1, 1, 1, 1, 1, 1, 1, 1, 1, 1, 1] ∧
      ¬((1 : Int) ≤ 0) :=
  ⟨by decide, by decide, by decide⟩

/-- Claim C7, counterexample: with an effective stack of zero and a
configured flop bet of 50 percent of a dead pot of 4, the tree contains a
bet transition (commitment 2, neither a check nor an all-in for
effective stack 0), and no all-in branch at all — an effective stack of
zero does not reduce the tree to check/all-in branches. -/
theorem claim_C7_counterexample :
    [0, 0, 0, 2, 2, 2, 2, 2, 2, 2, 2, 2, 2, 2, 2, 2, 2, 2] ∈
        (build_action_tree 200 [("FlopConfigIP.BetSize", "50")] 4 0).getD [] ∧
      (2 : Int) ∈ [0, 0, 0, 2, 2, 2, 2, 2, 2, 2, 2, 2, 2, 2, 2, 2, 2, 2] ∧
      ¬((2 : Int) = 0 ∨ (2 : Int) = (0 : Int)) :=
  ⟨by decide, by decide, by decide⟩

/-- Claim C5, counterexample: a malformed bet-size token is fatal to the
whole enumeration — _parse_sizes raises, so build_action_tree produces
nothing at all rather than skipping one branch. -/
theorem claim_C5_counterexample :
    _parse_sizes [("FlopConfigIP.BetSize", "abc")] = none ∧
      build_action_tree 100 [("FlopConfigIP.BetSize", "abc")] 1 10 = none :=
  ⟨by decide, by decide⟩



/-- Lines kept by the post-processing loop come from the raw result
list. -/
theorem ppLoop_subset (rs : List (List Int)) :
    ∀ seenL ln, ln ∈ ppLoop rs seenL → ln ∈ rs := by
  induction rs with
  | nil => intro seenL ln h; cases h
  | cons r rest ih =>
    intro seenL ln h
    unfold ppLoop at h
    split_ifs at h with h1 h2 h3
    · exact List.mem_cons_of_mem _ (ih _ _ h)
    · exact List.mem_cons_of_mem _ (ih _ _ h)
    · exact List.mem_cons_of_mem _ (ih _ _ h)
    · rcases List.mem_cons.mp h with h | h
      · exact h ▸ List.mem_cons_self _ _
      · exact List.mem_cons_of_mem _ (ih _ _ h)

/-- Every line kept by the post-processing loop passes the pairwise
monotonicity check. -/
theorem ppLoop_mono (rs : List (List Int)) :
    ∀ seenL ln, ln ∈ ppLoop rs seenL → monoOK ln = true := by
  induction rs with
  | nil => intro seenL ln h; cases h
  | cons r rest ih =>
    intro seenL ln h
    unfold ppLoop at h
    split_ifs at h with h1 h2 h3
    · exact ih _ _ h
    · exact ih _ _ h
    · exact ih _ _ h
    · rcases List.mem_cons.mp h with h | h
      · subst h
        revert h3
        cases monoOK ln <;> simp
      · exact ih _ _ h

/-- Invariant preservation along the DFS loop: if a node predicate P and
a path predicate Q are preserved by the street-advance transition and by
every pushed branch, and Q forces the line predicate L after flattening,
then every produced raw line satisfies L. -/
theorem dfsLoop_inv (ctx : Ctx) (P : Node → Prop) (Q : List (Int × Int) → Prop)
    (L : List Int → Prop)
    (hAdv : ∀ n path, P n → Q path →
      P (_advance_street n) ∧
        Q (_append path (_advance_street n).oop (_advance_street n).ip))
    (hExp : ∀ n path x, P n → Q path → x ∈ expandPushes ctx n path → P x.1 ∧ Q x.2)
    (hFlat : ∀ path, Q path → L (_flatten path)) :
    ∀ (fuel : Nat) (stack : List (Node × List (Int × Int))) (seen : List Node)
      (acc res : List (List Int)),
      (∀ x ∈ stack, P x.1 ∧ Q x.2) → (∀ ln ∈ acc, L ln) →
      dfsLoop ctx fuel stack seen acc = some res → ∀ ln ∈ res, L ln := by
  intro fuel
  induction fuel with
  | zero =>
    intro stack seen acc res hs ha hrun
    cases stack with
    | nil =>
      injection hrun with hrun
      subst hrun
      exact ha
    | cons x rest => cases hrun
  | succ f ih =>
    intro stack seen acc res hs ha hrun
    cases stack with
    | nil =>
      injection hrun with hrun
      subst hrun
      exact ha
    | cons x rest =>
      obtain ⟨n, path⟩ := x
      have hnp : P n ∧ Q path := hs _ (List.mem_cons_self _ _)
      have hrest : ∀ y ∈ rest, P y.1 ∧ Q y.2 := fun y hy =>
        hs _ (List.mem_cons_of_mem _ hy)
      unfold dfsLoop at hrun
      split_ifs at hrun with h1 h2 h3
      · exact ih rest seen acc res hrest ha hrun
      · refine ih rest (n :: seen) (acc ++ [_flatten path]) res hrest ?_ hrun
        intro ln hln
        rcases List.mem_append.mp hln with hln | hln
        · exact ha _ hln
        · rcases List.mem_singleton.mp hln with rfl
          exact hFlat path hnp.2
      · refine ih _ (n :: seen) acc res ?_ ha hrun
        intro y hy
        rcases List.mem_cons.mp hy with hy | hy
        · subst hy
          exact hAdv n path hnp.1 hnp.2
        · exact hrest _ hy
      · refine ih _ (n :: seen) acc res ?_ ha hrun
        intro y hy
        rcases List.mem_append.mp hy with hy | hy
        · exact hExp n path y hnp.1 hnp.2 (List.mem_reverse.mp hy)
        · exact hrest _ hy

/-- Membership in an appended path pair. -/
theorem mem_append_pair (path : List (Int × Int)) (o i : Int) (q : Int × Int)
    (hq : q ∈ _append path o i) :
    q ∈ path ∨
      q = (max (path.getLast?.getD (0, 0)).1 o, max (path.getLast?.getD (0, 0)).2 i) := by
  unfold _append at hq
  rcases List.mem_append.mp hq with hq | hq
  · exact Or.inl hq
  · exact Or.inr (List.mem_singleton.mp hq)

/-- The last pair of a path is the pair (0, 0) or a member of the path. -/
theorem getLastD_zero_or_mem (path : List (Int × Int)) :
    path.getLast?.getD (0, 0) = (0, 0) ∨ path.getLast?.getD (0, 0) ∈ path := by
  cases h : path.getLast? with
  | none => left; rfl
  | some p =>
    right
    simp only [Option.getD_some]
    exact List.mem_of_mem_getLast? (by rw [h]; rfl)

/-- Membership in a flattened path. -/
theorem mem_flatten_cases (path : List (Int × Int)) (v : Int)
    (hv : v ∈ _flatten path) :
    v = 0 ∨ ∃ q ∈ path, v = q.1 ∨ v = q.2 := by
  unfold _flatten at hv
  split_ifs at hv with h
  · rcases List.mem_cons.mp hv with hv | hv
    · exact Or.inl hv
    · exact Or.inl (List.mem_singleton.mp hv)
  · rw [List.mem_flatMap] at hv
    obtain ⟨q, hq, hvq⟩ := hv
    refine Or.inr ⟨q, List.mem_of_mem_drop hq, ?_⟩
    rcases List.mem_cons.mp hvq with hvq | hvq
    · exact Or.inl hvq
    · exact Or.inr (List.mem_singleton.mp hvq)



/-- _cap_to_eff stays below a positive effective stack. -/
theorem cap_le (x eff : Int) (he : 0 < eff) : _cap_to_eff x eff ≤ eff := by
  unfold _cap_to_eff
  split_ifs with h
  · omega
  · exact min_le_right _ _

/-- The context records the given dead pot and effective stack. -/
theorem ctxOf_eff (kv : KV) (dead eff : Int) (ctx : Ctx)
    (h : ctxOf kv dead eff = some ctx) : ctx.dead = dead ∧ ctx.eff = eff := by
  unfold ctxOf at h
  cases hp : _parse_sizes kv with
  | none => rw [hp] at h; cases h
  | some sz0 =>
    rw [hp] at h
    injection h with h
    subst h
    exact ⟨rfl, rfl⟩

/-- Appending a bounded pair keeps a path bounded. -/
theorem append_le (path : List (Int × Int)) (o i eff : Int)
    (hQ : ∀ q ∈ path, q.1 ≤ eff ∧ q.2 ≤ eff) (h0 : (0 : Int) ≤ eff)
    (ho : o ≤ eff) (hi : i ≤ eff) :
    ∀ q ∈ _append path o i, q.1 ≤ eff ∧ q.2 ≤ eff := by
  intro q hq
  rcases mem_append_pair path o i q hq with h | h
  · exact hQ q h
  · subst h
    rcases getLastD_zero_or_mem path with hl | hl
    · rw [hl]
      exact ⟨max_le h0 ho, max_le h0 hi⟩
    · obtain ⟨ha, hb⟩ := hQ _ hl
      exact ⟨max_le ha ho, max_le hb hi⟩

/-- A bet node keeps both commitments below a positive effective stack. -/
theorem _bet_commits_le (dead : Int) (n : Node) (pct : Rat) (eff : Int) (nb : Node)
    (h : _bet dead n pct eff = some nb) (he : 0 < eff)
    (hP : n.oop ≤ eff ∧ n.ip ≤ eff) : nb.oop ≤ eff ∧ nb.ip ≤ eff := by
  unfold _bet at h
  split_ifs at h with h1 h2 <;> injection h with h <;> subst h
  · exact ⟨cap_le _ _ he, hP.2⟩
  · exact ⟨hP.1, cap_le _ _ he⟩

/-- A raise node keeps both commitments below a positive effective
stack. -/
theorem _raise_commits_le (dead : Int) (n : Node) (pct : Rat) (eff : Int) (nr : Node)
    (h : _raise dead n pct eff = some nr) (he : 0 < eff)
    (hP : n.oop ≤ eff ∧ n.ip ≤ eff) : nr.oop ≤ eff ∧ nr.ip ≤ eff := by
  unfold _raise at h
  split_ifs at h with h1 h2 <;> injection h with h <;> subst h
  · exact ⟨cap_le _ _ he, hP.2⟩
  · exact ⟨hP.1, cap_le _ _ he⟩

/-- A call node keeps both commitments below a positive effective
stack. -/
theorem _call_commits_le (n : Node) (eff : Int) (he : 0 < eff)
    (hP : n.oop ≤ eff ∧ n.ip ≤ eff) :
    (_call n eff).oop ≤ eff ∧ (_call n eff).ip ≤ eff := by
  unfold _call
  split_ifs with h
  · exact ⟨hP.1, cap_le _ _ he⟩
  · exact ⟨cap_le _ _ he, hP.2⟩

/-- Every pushed branch keeps commitments (of its node and all along its
path) below a positive effective stack. -/
theorem expand_le (ctx : Ctx) (n : Node) (path : List (Int × Int))
    (x : Node × List (Int × Int)) (he : 0 < ctx.eff)
    (hP : n.oop ≤ ctx.eff ∧ n.ip ≤ ctx.eff)
    (hQ : ∀ q ∈ path, q.1 ≤ ctx.eff ∧ q.2 ≤ ctx.eff)
    (hx : x ∈ expandPushes ctx n path) :
    (x.1.oop ≤ ctx.eff ∧ x.1.ip ≤ ctx.eff) ∧
      ∀ q ∈ x.2, q.1 ≤ ctx.eff ∧ q.2 ≤ ctx.eff := by
  have h0 : (0 : Int) ≤ ctx.eff := le_of_lt he
  unfold expandPushes at hx
  rcases List.mem_append.mp hx with hx | hx
  · split_ifs at hx with hg
    · rcases List.mem_singleton.mp hx with rfl
      exact ⟨⟨le_refl _, le_refl _⟩, append_le path _ _ _ hQ h0 (le_refl _) (le_refl _)⟩
    · cases hx
  · split_ifs at hx with hlive
    · rcases List.mem_cons.mp hx with hx | hx
      · subst hx
        exact ⟨hP, append_le path _ _ _ hQ h0 hP.1 hP.2⟩
      · unfold betPushes at hx
        rw [List.mem_flatMap] at hx
        obtain ⟨pct, _, hx⟩ := hx
        cases hb : _bet ctx.dead n pct ctx.eff with
        | none => rw [hb] at hx; cases hx
        | some nb =>
          rw [hb] at hx
          have hc := _bet_commits_le ctx.dead n pct ctx.eff nb hb he hP
          have hcall := _call_commits_le nb ctx.eff he hc
          simp only [List.mem_cons, List.mem_singleton] at hx
          rcases hx with hx | hx | hx
          · subst hx
            exact ⟨hc, append_le path _ _ _ hQ h0 hc.1 hc.2⟩
          · subst hx
            refine ⟨hcall, ?_⟩
            exact append_le _ _ _ _ (append_le path _ _ _ hQ h0 hc.1 hc.2) h0 hcall.1 hcall.2
          · cases hx
    · rcases List.mem_cons.mp hx with hx | hx
      · subst hx
        have hcall := _call_commits_le n ctx.eff he hP
        exact ⟨hcall, append_le path _ _ _ hQ h0 hcall.1 hcall.2⟩
      · unfold raisePushes at hx
        split_ifs at hx with hcap
        · rw [List.mem_flatMap] at hx
          obtain ⟨tok, _, hx⟩ := hx
          cases ht : tokVal tok with
          | none => rw [ht] at hx; cases hx
          | some pct =>
            rw [ht] at hx
            dsimp only at hx
            cases hr : _raise ctx.dead n pct ctx.eff with
            | none => rw [hr] at hx; cases hx
            | some nr =>
              rw [hr] at hx
              rcases List.mem_singleton.mp hx with rfl
              have hc := _raise_commits_le ctx.dead n pct ctx.eff nr hr he hP
              exact ⟨hc, append_le path _ _ _ hQ h0 hc.1 hc.2⟩
        · cases hx

/-- Claim C6, amended: every emitted line passes the source pairwise
monotonicity check, and whenever the effective stack is positive no
commitment in any line exceeds it.  (With a non-positive effective stack
_cap_to_eff caps nothing and the bound fails, see the counterexample.) -/
theorem claim_C6_amended (fuel : Nat) (kv : KV) (dead eff : Int)
    (lines : List (List Int)) (ln : List Int)
    (hb : build_action_tree fuel kv dead eff = some lines) (hln : ln ∈ lines) :
    monoOK ln = true ∧ (0 < eff → ∀ v ∈ ln, v ≤ eff) := by
  unfold build_action_tree at hb
  cases hc : ctxOf kv dead eff with
  | none => rw [hc] at hb; cases hb
  | some ctx =>
    rw [hc] at hb
    dsimp only at hb
    cases hr : dfsLoop ctx fuel [(startNode kv, [(0, 0)])] [] [] with
    | none => rw [hr] at hb; cases hb
    | some results =>
      rw [hr] at hb
      injection hb with hb
      subst hb
      refine ⟨ppLoop_mono results [] ln hln, ?_⟩
      intro he v hv
      have heff := (ctxOf_eff kv dead eff ctx hc).2
      have hres : ln ∈ results := ppLoop_subset results [] ln hln
      have heC : 0 < ctx.eff := by rw [heff]; exact he
      have := dfsLoop_inv ctx
        (fun m => m.oop ≤ ctx.eff ∧ m.ip ≤ ctx.eff)
        (fun p => ∀ q ∈ p, q.1 ≤ ctx.eff ∧ q.2 ≤ ctx.eff)
        (fun l => ∀ w ∈ l, w ≤ ctx.eff)
        (fun n path hP hQ =>
          ⟨hP, append_le path _ _ _ hQ (le_of_lt heC) hP.1 hP.2⟩)
        (fun n path x hP hQ hx => expand_le ctx n path x heC hP hQ hx)
        (fun path hQ => by
          intro w hw
          rcases mem_flatten_cases path w hw with hw | ⟨q, hq, hw⟩
          · omega
          · rcases hw with hw | hw
            · subst hw
              exact (hQ q hq).1
            · subst hw
              exact (hQ q hq).2)
        fuel [(startNode kv, [(0, 0)])] [] [] results
        (by
          intro x hx
          rcases List.mem_singleton.mp hx with rfl
          refine ⟨⟨?_, ?_⟩, ?_⟩
          · exact le_of_lt heC
          · exact le_of_lt heC
          · intro q hq
            rcases List.mem_singleton.mp hq with rfl
            exact ⟨le_of_lt heC, le_of_lt heC⟩)
        (by intro l hl; cases hl) hr
      have hvle := this ln hres v hv
      rw [heff] at hvle
      exact hvle



/-- Witness for claim C6 on a concrete run. -/
theorem claim_C6_witness :
    build_action_tree 100 ([] : KV) 1 1 =
        some [[0, 0, 0, 0, 0, 0, 1, 1], [0, 0, 1, 1], [1, 1]] ∧
      (monoOK [1, 1] = true ∧ (0 < (1 : Int) → ∀ v ∈ ([1, 1] : List Int), v ≤ (1 : Int))) :=
  ⟨by decide,
   claim_C6_amended 100 [] 1 1 [[0, 0, 0, 0, 0, 0, 1, 1], [0, 0, 1, 1], [1, 1]]
     [1, 1] (by decide) (by decide)⟩

/-- With no configured bet or donk sizes, no street offers an open bet. -/
theorem bet_sizes_empty (sz : Sizes)
    (h : sz.flop_ip_bets = [] ∧ sz.flop_oop_donks = [] ∧ sz.turn_ip_bets = [] ∧
      sz.turn_oop_donks = [] ∧ sz.river_ip_bets = [] ∧ sz.river_oop_donks = [])
    (st : Int) (b : String) (lap : Option String) :
    bet_sizes_for sz st b lap = [] := by
  obtain ⟨h1, h2, h3, h4, h5, h6⟩ := h
  unfold bet_sizes_for
  split_ifs <;> first
    | exact h1 | exact h2 | exact h3 | exact h4 | exact h5 | exact h6 | rfl

/-- Appending a pair that is (0,0) or (eff,eff) to a path of such pairs
keeps every pair of that shape. -/
theorem append_mem01 (path : List (Int × Int)) (o i eff : Int)
    (hQ : ∀ q ∈ path, q = ((0 : Int), (0 : Int)) ∨ q = (eff, eff))
    (ho : o = 0 ∧ i = 0 ∨ o = eff ∧ i = eff) :
    ∀ q ∈ _append path o i, q = ((0 : Int), (0 : Int)) ∨ q = (eff, eff) := by
  intro q hq
  rcases mem_append_pair path o i q hq with h | h
  · exact hQ q h
  have hL : path.getLast?.getD (0, 0) = ((0 : Int), (0 : Int)) ∨
      path.getLast?.getD (0, 0) = (eff, eff) := by
    rcases getLastD_zero_or_mem path with hl | hl
    · exact Or.inl hl
    · exact hQ _ hl
  subst h
  rcases le_total (0 : Int) eff with hsign | hsign
  · rcases hL with hL | hL <;> rw [hL] <;> rcases ho with ⟨rfl, rfl⟩ | ⟨rfl, rfl⟩ <;>
      simp [max_self, max_eq_right hsign, max_eq_left hsign]
  · rcases hL with hL | hL <;> rw [hL] <;> rcases ho with ⟨rfl, rfl⟩ | ⟨rfl, rfl⟩ <;>
      simp [max_self, max_eq_right hsign, max_eq_left hsign]

/-- Claim C7, amended (all-streets form): if every configured bet and
donk list is empty — in particular when every sizing table is missing —
then every commitment entry of every emitted line is 0 or the effective
stack: the tree consists of check and all-in transitions only. -/
theorem claim_C7_amended (fuel : Nat) (kv : KV) (dead eff : Int) (ctx : Ctx)
    (hc : ctxOf kv dead eff = some ctx)
    (hempty : ctx.sz.flop_ip_bets = [] ∧ ctx.sz.flop_oop_donks = [] ∧
      ctx.sz.turn_ip_bets = [] ∧ ctx.sz.turn_oop_donks = [] ∧
      ctx.sz.river_ip_bets = [] ∧ ctx.sz.river_oop_donks = [])
    (lines : List (List Int)) (ln : List Int) (v : Int)
    (hb : build_action_tree fuel kv dead eff = some lines)
    (hln : ln ∈ lines) (hv : v ∈ ln) : v = 0 ∨ v = eff := by
  unfold build_action_tree at hb
  rw [hc] at hb
  dsimp only at hb
  cases hr : dfsLoop ctx fuel [(startNode kv, [(0, 0)])] [] [] with
  | none => rw [hr] at hb; cases hb
  | some results =>
    rw [hr] at hb
    injection hb with hb
    subst hb
    have heff := (ctxOf_eff kv dead eff ctx hc).2
    have hres : ln ∈ results := ppLoop_subset results [] ln hln
    have hbets := bet_sizes_empty ctx.sz hempty
    have hmain := dfsLoop_inv ctx
      (fun m => (m.oop = 0 ∧ m.ip = 0 ∨ m.oop = ctx.eff ∧ m.ip = ctx.eff) ∧
        m.live = "none")
      (fun p => ∀ q ∈ p, q = ((0 : Int), (0 : Int)) ∨ q = (ctx.eff, ctx.eff))
      (fun l => ∀ w ∈ l, w = 0 ∨ w = ctx.eff)
      (fun n path hP hQ => by
        refine ⟨⟨hP.1, rfl⟩, ?_⟩
        exact append_mem01 path _ _ _ hQ hP.1)
      (fun n path x hP hQ hx => by
        unfold expandPushes at hx
        rcases List.mem_append.mp hx with hx | hx
        · split_ifs at hx with hg
          · rcases List.mem_singleton.mp hx with rfl
            refine ⟨⟨Or.inr ⟨rfl, rfl⟩, rfl⟩, ?_⟩
            exact append_mem01 path _ _ _ hQ (Or.inr ⟨rfl, rfl⟩)
          · cases hx
        · split_ifs at hx with hlive
          · have hbp : betPushes ctx n path = [] := by
              unfold betPushes
              rw [hbets n.street n.actor n.last_agg_prev]
              rfl
            rw [hbp] at hx
            rcases List.mem_cons.mp hx with hx | hx
            · subst hx
              refine ⟨⟨hP.1, rfl⟩, ?_⟩
              exact append_mem01 path _ _ _ hQ hP.1
            · cases hx
          · exact absurd hP.2 hlive)
      (fun path hQ => by
        intro w hw
        rcases mem_flatten_cases path w hw with hw | ⟨q, hq, hw⟩
        · exact Or.inl hw
        · rcases hQ q hq with rfl | rfl
          · rcases hw with rfl | rfl
            · exact Or.inl rfl
            · exact Or.inl rfl
          · rcases hw with rfl | rfl
            · exact Or.inr rfl
            · exact Or.inr rfl)
      fuel [(startNode kv, [(0, 0)])] [] [] results
      (by
        intro x hx
        rcases List.mem_singleton.mp hx with rfl
        refine ⟨⟨Or.inl ⟨rfl, rfl⟩, rfl⟩, ?_⟩
        intro q hq
        rcases List.mem_singleton.mp hq with rfl
        exact Or.inl rfl)
      (by intro l hl; cases hl) hr
    have := hmain ln hres v hv
    rw [heff] at this
    exact this

/-- Witness for claim C7 on a configuration with no sizing tables at
all. -/
theorem claim_C7_witness :
    ctxOf ([] : KV) 1 1 =
        some ⟨1, 1, ⟨[], [], [], [], [], [], [], [], [], [], [], [],
          false, false, false⟩, 3, 3, 3, none⟩ ∧
      ((1 : Int) = 0 ∨ (1 : Int) = 1) :=
  ⟨by decide,
   claim_C7_amended 100 [] 1 1
     ⟨1, 1, ⟨[], [], [], [], [], [], [], [], [], [], [], [],
       false, false, false⟩, 3, 3, 3, none⟩
     (by decide) (by decide)
     [[0, 0, 0, 0, 0, 0, 1, 1], [0, 0, 1, 1], [1, 1]] [1, 1] 1
     (by decide) (by decide) (by decide)⟩



/-- The six raise-size configuration keys. -/
def raiseKeys : List String :=
  ["FlopConfigIP.RaiseSize", "FlopConfig.RaiseSize",
   "TurnConfigIP.RaiseSize", "TurnConfig.RaiseSize",
   "RiverConfigIP.RaiseSize", "RiverConfig.RaiseSize"]

/-- Full characterisation of _parse_sizes: it fails exactly when one of
the six bet-size lists fails to parse, and on success each field comes
from its configuration key. -/
theorem parse_cases (kv : KV) :
    (_parse_sizes kv = none ∧
      (floatsOf kv "FlopConfigIP.BetSize" = none ∨
        floatsOf kv "FlopConfig.DonkBetSize" = none ∨
        floatsOf kv "TurnConfigIP.BetSize" = none ∨
        floatsOf kv "TurnConfig.DonkBetSize" = none ∨
        floatsOf kv "RiverConfigIP.BetSize" = none ∨
        floatsOf kv "RiverConfig.DonkBetSize" = none)) ∨
    ∃ sz, _parse_sizes kv = some sz ∧
      floatsOf kv "FlopConfigIP.BetSize" = some sz.flop_ip_bets ∧
      floatsOf kv "FlopConfig.DonkBetSize" = some sz.flop_oop_donks ∧
      floatsOf kv "TurnConfigIP.BetSize" = some sz.turn_ip_bets ∧
      floatsOf kv "TurnConfig.DonkBetSize" = some sz.turn_oop_donks ∧
      floatsOf kv "RiverConfigIP.BetSize" = some sz.river_ip_bets ∧
      floatsOf kv "RiverConfig.DonkBetSize" = some sz.river_oop_donks ∧
      sz.flop_ip_raises = raisesOf kv "FlopConfigIP.RaiseSize" ∧
      sz.flop_oop_raises = raisesOf kv "FlopConfig.RaiseSize" ∧
      sz.turn_ip_raises = raisesOf kv "TurnConfigIP.RaiseSize" ∧
      sz.turn_oop_raises = raisesOf kv "TurnConfig.RaiseSize" ∧
      sz.river_ip_raises = raisesOf kv "RiverConfigIP.RaiseSize" ∧
      sz.river_oop_raises = raisesOf kv "RiverConfig.RaiseSize" ∧
      sz.flop_add_ai = flagOf kv "FlopConfig.AddAllin" ∧
      sz.turn_add_ai = flagOf kv "TurnConfig.AddAllin" ∧
      sz.river_add_ai = flagOf kv "RiverConfig.AddAllin" := by
  unfold _parse_sizes
  cases h1 : floatsOf kv "FlopConfigIP.BetSize" with
  | none => exact Or.inl ⟨rfl, Or.inl rfl⟩
  | some v1 =>
  cases h2 : floatsOf kv "FlopConfig.DonkBetSize" with
  | none => exact Or.inl ⟨rfl, Or.inr (Or.inl rfl)⟩
  | some v2 =>
  cases h3 : floatsOf kv "TurnConfigIP.BetSize" with
  | none => exact Or.inl ⟨rfl, Or.inr (Or.inr (Or.inl rfl))⟩
  | some v3 =>
  cases h4 : floatsOf kv "TurnConfig.DonkBetSize" with
  | none => exact Or.inl ⟨rfl, Or.inr (Or.inr (Or.inr (Or.inl rfl)))⟩
  | some v4 =>
  cases h5 : floatsOf kv "RiverConfigIP.BetSize" with
  | none =>
    exact Or.inl ⟨rfl, Or.inr (Or.inr (Or.inr (Or.inr (Or.inl rfl))))⟩
  | some v5 =>
  cases h6 : floatsOf kv "RiverConfig.DonkBetSize" with
  | none =>
    exact Or.inl ⟨rfl, Or.inr (Or.inr (Or.inr (Or.inr (Or.inr rfl))))⟩
  | some v6 =>
    exact Or.inr ⟨_, rfl, rfl, rfl, rfl, rfl, rfl, rfl, rfl, rfl, rfl, rfl,
      rfl, rfl, rfl, rfl, rfl⟩

/-- A flatMap that skips tokens exactly when tokVal rejects them factors
through filterMap tokVal. -/
theorem flatMap_tokVal {A : Type} (toks : List String) (f : Rat → List A) :
    (toks.flatMap (fun tok =>
      match tokVal tok with
      | none => []
      | some pct => f pct)) = (toks.filterMap tokVal).flatMap f := by
  induction toks with
  | nil => rfl
  | cons t rest ih =>
    cases ht : tokVal t <;>
      simp [List.flatMap_cons, List.filterMap_cons, ht, ih]

/-- The pushed branches depend on the sizing lists only through the bet
lists and the parseable raise values. -/
theorem expand_congr (dead eff cf ct cr : Int) (spr : Option Rat)
    (sz1 sz2 : Sizes)
    (hbets : ∀ st b lap, bet_sizes_for sz1 st b lap = bet_sizes_for sz2 st b lap)
    (hraises : ∀ st r, (raise_sizes_for sz1 st r).filterMap tokVal =
      (raise_sizes_for sz2 st r).filterMap tokVal)
    (n : Node) (path : List (Int × Int)) :
    expandPushes ⟨dead, eff, sz1, cf, ct, cr, spr⟩ n path =
      expandPushes ⟨dead, eff, sz2, cf, ct, cr, spr⟩ n path := by
  unfold expandPushes
  rw [add_allin_allowed_true, add_allin_allowed_true]
  dsimp only
  congr 1
  split_ifs with hlive
  · congr 1
    unfold betPushes
    dsimp only
    rw [hbets n.street n.actor n.last_agg_prev]
  · congr 1
    unfold raisePushes cap_for
    dsimp only
    split_ifs <;>
      first
        | rfl
        | rw [flatMap_tokVal, flatMap_tokVal, hraises n.street n.actor]

/-- The DFS loop depends on the sizing lists only through the bet lists
and the parseable raise values. -/
theorem dfsLoop_congr (dead eff cf ct cr : Int) (spr : Option Rat)
    (sz1 sz2 : Sizes)
    (hbets : ∀ st b lap, bet_sizes_for sz1 st b lap = bet_sizes_for sz2 st b lap)
    (hraises : ∀ st r, (raise_sizes_for sz1 st r).filterMap tokVal =
      (raise_sizes_for sz2 st r).filterMap tokVal) :
    ∀ (fuel : Nat) stack seen acc,
      dfsLoop ⟨dead, eff, sz1, cf, ct, cr, spr⟩ fuel stack seen acc =
        dfsLoop ⟨dead, eff, sz2, cf, ct, cr, spr⟩ fuel stack seen acc := by
  intro fuel
  induction fuel with
  | zero => intro stack seen acc; cases stack <;> rfl
  | succ f ih =>
    intro stack seen acc
    cases stack with
    | nil => rfl
    | cons x rest =>
      obtain ⟨n, path⟩ := x
      unfold dfsLoop
      dsimp only
      split_ifs with h1 h2 h3
      · exact ih rest seen acc
      · exact ih rest _ _
      · exact ih _ _ _
      · rw [expand_congr dead eff cf ct cr spr sz1 sz2 hbets hraises n path]
        exact ih _ _ _



/-- Claim C5, amended: an unparsable (or literal all-in) raise-size token
changes nothing — two configurations that agree outside one raise-size
key K, and whose K token lists agree after dropping the tokens the loop
skips, produce identical enumerations.  In particular inserting a
malformed token into a raise list only skips that one branch and the
enumeration still completes. -/
theorem claim_C5_amended (kv1 kv2 : KV) (K : String) (dead eff : Int) (fuel : Nat)
    (hK : K ∈ raiseKeys)
    (hothers : ∀ k, k ≠ K → dictLookup kv1 k = dictLookup kv2 k)
    (hfilter : (raisesOf kv1 K).filterMap tokVal =
      (raisesOf kv2 K).filterMap tokVal) :
    build_action_tree fuel kv1 dead eff = build_action_tree fuel kv2 dead eff := by
  have hKne : ∀ b : String, b ∉ raiseKeys → K ≠ b := fun b hb hKb => hb (hKb ▸ hK)
  have hgetD : ∀ b d, K ≠ b → kvGetD kv1 b d = kvGetD kv2 b d := by
    intro b d hKb
    unfold kvGetD
    rw [hothers b (Ne.symm hKb)]
  have hfloats : ∀ b, K ≠ b → floatsOf kv1 b = floatsOf kv2 b := by
    intro b hKb
    unfold floatsOf
    rw [hgetD b "" hKb]
  have hraisesOf : ∀ b, K ≠ b → raisesOf kv1 b = raisesOf kv2 b := by
    intro b hKb
    unfold raisesOf
    rw [hgetD b "" hKb]
  have hRK : ∀ key, (raisesOf kv1 key).filterMap tokVal =
      (raisesOf kv2 key).filterMap tokVal := by
    intro key
    by_cases hKk : K = key
    · subst hKk
      exact hfilter
    · rw [hraisesOf key hKk]
  have hcaps : _street_caps kv1 = _street_caps kv2 := by
    unfold _street_caps
    rw [hgetD _ _ (hKne _ (by decide))]
  have hspr : sprLimitOf kv1 = sprLimitOf kv2 := by
    unfold sprLimitOf
    rw [hgetD _ _ (hKne _ (by decide))]
  have hstart : startNode kv1 = startNode kv2 := by
    unfold startNode pfaOf
    rw [hgetD _ _ (hKne _ (by decide))]
  have hf1 := hfloats "FlopConfigIP.BetSize" (hKne _ (by decide))
  have hf2 := hfloats "FlopConfig.DonkBetSize" (hKne _ (by decide))
  have hf3 := hfloats "TurnConfigIP.BetSize" (hKne _ (by decide))
  have hf4 := hfloats "TurnConfig.DonkBetSize" (hKne _ (by decide))
  have hf5 := hfloats "RiverConfigIP.BetSize" (hKne _ (by decide))
  have hf6 := hfloats "RiverConfig.DonkBetSize" (hKne _ (by decide))
  rcases parse_cases kv1 with ⟨hp1, hnone1⟩ |
    ⟨sz1, hp1, hb1, hb2, hb3, hb4, hb5, hb6, hr1, hr2, hr3, hr4, hr5, hr6, _, _, _⟩
  · have hp2 : _parse_sizes kv2 = none := by
      rcases parse_cases kv2 with ⟨hp2, _⟩ |
        ⟨sz2, _, hc1, hc2, hc3, hc4, hc5, hc6, _⟩
      · exact hp2
      · exfalso
        rcases hnone1 with h | h | h | h | h | h
        · rw [hf1, hc1] at h; cases h
        · rw [hf2, hc2] at h; cases h
        · rw [hf3, hc3] at h; cases h
        · rw [hf4, hc4] at h; cases h
        · rw [hf5, hc5] at h; cases h
        · rw [hf6, hc6] at h; cases h
    unfold build_action_tree ctxOf
    rw [hp1, hp2]
  · rcases parse_cases kv2 with ⟨hp2, hnone2⟩ |
      ⟨sz2, hp2, hc1, hc2, hc3, hc4, hc5, hc6, hs1, hs2, hs3, hs4, hs5, hs6, _, _, _⟩
    · exfalso
      rcases hnone2 with h | h | h | h | h | h
      · rw [← hf1, hb1] at h; cases h
      · rw [← hf2, hb2] at h; cases h
      · rw [← hf3, hb3] at h; cases h
      · rw [← hf4, hb4] at h; cases h
      · rw [← hf5, hb5] at h; cases h
      · rw [← hf6, hb6] at h; cases h
    · have e1 : sz1.flop_ip_bets = sz2.flop_ip_bets :=
        Option.some.inj ((hb1.symm.trans hf1).trans hc1)
      have e2 : sz1.flop_oop_donks = sz2.flop_oop_donks :=
        Option.some.inj ((hb2.symm.trans hf2).trans hc2)
      have e3 : sz1.turn_ip_bets = sz2.turn_ip_bets :=
        Option.some.inj ((hb3.symm.trans hf3).trans hc3)
      have e4 : sz1.turn_oop_donks = sz2.turn_oop_donks :=
        Option.some.inj ((hb4.symm.trans hf4).trans hc4)
      have e5 : sz1.river_ip_bets = sz2.river_ip_bets :=
        Option.some.inj ((hb5.symm.trans hf5).trans hc5)
      have e6 : sz1.river_oop_donks = sz2.river_oop_donks :=
        Option.some.inj ((hb6.symm.trans hf6).trans hc6)
      have hbets : ∀ st b lap,
          bet_sizes_for
            { sz1 with
              turn_oop_donks := _mirror_if_empty sz1.turn_oop_donks sz1.turn_ip_bets,
              river_oop_donks := _mirror_if_empty sz1.river_oop_donks sz1.river_ip_bets }
            st b lap =
          bet_sizes_for
            { sz2 with
              turn_oop_donks := _mirror_if_empty sz2.turn_oop_donks sz2.turn_ip_bets,
              river_oop_donks := _mirror_if_empty sz2.river_oop_donks sz2.river_ip_bets }
            st b lap := by
        intro st b lap
        unfold bet_sizes_for
        dsimp only
        split_ifs <;>
          first
            | rfl
            | exact e1
            | exact e2
            | exact e3
            | exact e5
            | rw [e4, e3]
            | rw [e6, e5]
      have hraises : ∀ st r,
          (raise_sizes_for
            { sz1 with
              turn_oop_donks := _mirror_if_empty sz1.turn_oop_donks sz1.turn_ip_bets,
              river_oop_donks := _mirror_if_empty sz1.river_oop_donks sz1.river_ip_bets }
            st r).filterMap tokVal =
          (raise_sizes_for
            { sz2 with
              turn_oop_donks := _mirror_if_empty sz2.turn_oop_donks sz2.turn_ip_bets,
              river_oop_donks := _mirror_if_empty sz2.river_oop_donks sz2.river_ip_bets }
            st r).filterMap tokVal := by
        intro st r
        unfold raise_sizes_for
        dsimp only
        split_ifs <;>
          first
            | (rw [hr1, hs1]; exact hRK _)
            | (rw [hr2, hs2]; exact hRK _)
            | (rw [hr3, hs3]; exact hRK _)
            | (rw [hr4, hs4]; exact hRK _)
            | (rw [hr5, hs5]; exact hRK _)
            | (rw [hr6, hs6]; exact hRK _)
      unfold build_action_tree ctxOf
      rw [hp1, hp2]
      dsimp only
      rw [hstart, hcaps, hspr]
      rw [dfsLoop_congr dead eff (_street_caps kv2).1 (_street_caps kv2).2.1
        (_street_caps kv2).2.2 (sprLimitOf kv2) _ _ hbets hraises fuel
        [(startNode kv2, [(0, 0)])] [] []]



/-- Witness for claim C5: inserting the unparsable raise token "zz" into
the flop raise list changes nothing, and the enumeration completes. -/
theorem claim_C5_witness :
    "FlopConfigIP.RaiseSize" ∈ raiseKeys ∧
      build_action_tree 400
          [("FlopConfigIP.BetSize", "50"), ("FlopConfigIP.RaiseSize", "zz 60")] 1 10 =
        build_action_tree 400
          [("FlopConfigIP.BetSize", "50"), ("FlopConfigIP.RaiseSize", "60")] 1 10 ∧
      (build_action_tree 400
        [("FlopConfigIP.BetSize", "50"), ("FlopConfigIP.RaiseSize", "zz 60")] 1 10).isSome
        = true :=
  ⟨by decide,
   claim_C5_amended
     [("FlopConfigIP.BetSize", "50"), ("FlopConfigIP.RaiseSize", "zz 60")]
     [("FlopConfigIP.BetSize", "50"), ("FlopConfigIP.RaiseSize", "60")]
     "FlopConfigIP.RaiseSize" 1 10 400 (by decide)
     (by
       intro k hk
       simp only [dictLookup]
       by_cases h1 : k = "FlopConfigIP.BetSize"
       · rw [if_pos h1, if_pos h1]
       · rw [if_neg h1, if_neg h1, if_neg hk, if_neg hk])
     (by decide),
   by decide⟩



/-- A seat that has not folded (the spec model keeps exactly these in its
alive list). -/
def nfold (p : PSeat) : Bool := !p.is_folded

/-- Number of non-folded seats strictly before an index: the position of
that index in the alive list. -/
def rankOf (A : List PSeat) (idx : Nat) : Nat := (A.take idx).countP nfold

/-- The labels of the non-folded seats, in order. -/
def aliveOf (A : List PSeat) : List String := (A.filter nfold).map PSeat.pos

/-- The bounded search of find_next_go visits (cur+1+i) mod n for
i = 0, 1, ..., fuel-1 and returns the first eligible index. -/
theorem find_next_go_eq (A : List PSeat) :
    ∀ (fuel cur : Nat),
      find_next_go A cur fuel =
        ((List.range fuel).map (fun i => (cur + 1 + i) % A.length)).find?
          (fun j => eligible (A.getD j defSeat)) := by
  intro fuel
  induction fuel with
  | zero => intro cur; rfl
  | succ f ih =>
    intro cur
    rw [List.range_succ_eq_map, List.map_cons]
    show (if eligible (A.getD ((cur + 1) % A.length) defSeat) = true
          then some ((cur + 1) % A.length)
          else find_next_go A ((cur + 1) % A.length) f) = _
    cases hP : eligible (A.getD ((cur + 1) % A.length) defSeat) with
    | true =>
      rw [List.find?_cons_of_pos _ (by simpa using hP)]
      simp
    | false =>
      rw [List.find?_cons_of_neg _ (by simpa using hP)]
      simp only [Bool.false_eq_true, if_false]
      rw [ih ((cur + 1) % A.length), List.map_map]
      congr 1
      apply List.map_congr_left
      intro i _
      show ((cur + 1) % A.length + 1 + i) % A.length = (cur + 1 + (i + 1)) % A.length
      rw [Nat.add_assoc ((cur + 1) % A.length) 1 i, Nat.mod_add_mod]
      congr 1
      omega


/-- The cyclic visit order from idx+1 splits into the tail indices
idx+1 .. n-1 followed by the head indices 0 .. idx. -/
theorem cyc_split (n idx : Nat) (hidx : idx < n) :
    (List.range n).map (fun i => (idx + 1 + i) % n) =
      List.range' (idx + 1) (n - idx - 1) ++ List.range (idx + 1) := by
  obtain ⟨k, hk⟩ : ∃ k, n = k + (idx + 1) := ⟨n - idx - 1, by omega⟩
  have hkk : n - idx - 1 = k := by omega
  have h1 : List.range n = List.range k ++ (List.range (idx + 1)).map (k + ·) := by
    rw [hk, List.range_add]
  rw [h1, List.map_append, hkk]
  congr 1
  · rw [List.range'_eq_map_range]
    apply List.map_congr_left
    intro i hi
    rw [List.mem_range] at hi
    have hlt : idx + 1 + i < n := by omega
    rw [Nat.mod_eq_of_lt hlt]
  · rw [List.map_map]
    conv_rhs => rw [← List.map_id (List.range (idx + 1))]
    apply List.map_congr_left
    intro j hj
    rw [List.mem_range] at hj
    show (idx + 1 + (k + j)) % n = j
    have he : idx + 1 + (k + j) = n + j := by omega
    rw [he, Nat.add_mod_left, Nat.mod_eq_of_lt (by omega)]

/-- Linear-segment search: over the index window [a, a+k) the search
either finds nothing (and the window holds no non-folded seat) or finds
the first non-folded index, whose rank equals the rank at the window
start. -/
theorem find_seg (A : List PSeat) (hallin : ∀ p ∈ A, p.is_all_in = false) :
    ∀ (k a : Nat), a + k ≤ A.length →
      ((List.range' a k).find? (fun j => eligible (A.getD j defSeat)) = none ∧
        ((A.drop a).take k).countP nfold = 0) ∨
      (∃ j, (List.range' a k).find? (fun j => eligible (A.getD j defSeat)) = some j ∧
        a ≤ j ∧ j < a + k ∧ nfold (A.getD j defSeat) = true ∧
        (A.take j).countP nfold = (A.take a).countP nfold) := by
  intro k
  induction k with
  | zero =>
    intro a _
    left
    exact ⟨rfl, by simp⟩
  | succ k ih =>
    intro a ha
    have han : a < A.length := by omega
    have hmem : A.getD a defSeat ∈ A := by
      rw [List.getD_eq_getElem A defSeat han]
      exact List.getElem_mem han
    have hel : eligible (A.getD a defSeat) = nfold (A.getD a defSeat) := by
      unfold eligible nfold
      rw [hallin _ hmem]
      simp
    have hrange : List.range' a (k + 1) = a :: List.range' (a + 1) k :=
      List.range'_succ a k 1
    have hsingle : A[a]?.toList = [A.getD a defSeat] := by
      rw [List.getElem?_eq_getElem han, List.getD_eq_getElem A defSeat han]
      rfl
    cases hPa : eligible (A.getD a defSeat) with
    | true =>
      right
      refine ⟨a, ?_, le_refl a, by omega, by rw [← hel]; exact hPa, rfl⟩
      rw [hrange]
      exact List.find?_cons_of_pos _ (by simpa using hPa)
    | false =>
      have hnf : nfold (A.getD a defSeat) = false := by rw [← hel]; exact hPa
      have hcnt_a : (A.take (a + 1)).countP nfold = (A.take a).countP nfold := by
        rw [List.take_succ, List.countP_append, hsingle]
        have h0 : List.countP nfold [A.getD a defSeat] = 0 := by
          simp only [List.countP_cons, List.countP_nil, hnf, Bool.false_eq_true, if_false]
        rw [h0, Nat.add_zero]
      rcases ih (a + 1) (by omega) with ⟨hfind, hcnt⟩ | ⟨j, hfind, hj1, hj2, hj3, hj4⟩
      · left
        constructor
        · rw [hrange, List.find?_cons_of_neg _ (by simpa using hPa)]
          exact hfind
        · have hdrop : A.drop a = A.getD a defSeat :: A.drop (a + 1) := by
            rw [List.getD_eq_getElem A defSeat han]
            exact List.drop_eq_getElem_cons han
          rw [hdrop, List.take_succ_cons, List.countP_cons, hnf]
          simpa using hcnt
      · right
        refine ⟨j, ?_, by omega, by omega, hj3, ?_⟩
        · rw [hrange, List.find?_cons_of_neg _ (by simpa using hPa)]
          exact hfind
        · rw [hj4, hcnt_a]



/-- Characterisation of the bounded turn search on an all-in-free table:
it fails exactly when every seat has folded, and otherwise it returns a
non-folded index whose alive-list position is (rank of idx+1) modulo the
number of alive seats. -/
theorem find_next_cases (A : List PSeat) (idx : Nat) (hn : 0 < A.length)
    (hidx : idx < A.length) (hallin : ∀ p ∈ A, p.is_all_in = false) :
    (A.countP nfold = 0 → find_next A idx = none) ∧
    (0 < A.countP nfold → ∃ j, find_next A idx = some j ∧ j < A.length ∧
      nfold (A.getD j defSeat) = true ∧
      rankOf A j = (A.take (idx + 1)).countP nfold % A.countP nfold) := by
  have hfneq : find_next A idx =
      ((List.range' (idx + 1) (A.length - idx - 1) ++ List.range (idx + 1)).find?
        (fun j => eligible (A.getD j defSeat))) := by
    unfold find_next
    rw [find_next_go_eq A A.length idx, cyc_split A.length idx hidx]
  have hsplit : A.countP nfold =
      (A.take (idx + 1)).countP nfold + (A.drop (idx + 1)).countP nfold := by
    conv_lhs => rw [← List.take_append_drop (idx + 1) A]
    rw [List.countP_append]
  have hdt : (A.drop (idx + 1)).take (A.length - idx - 1) = A.drop (idx + 1) :=
    List.take_of_length_le (by rw [List.length_drop]; omega)
  have hph1 := find_seg A hallin (A.length - idx - 1) (idx + 1) (by omega)
  rw [hdt] at hph1
  have hph2 := find_seg A hallin (idx + 1) 0 (by omega)
  simp only [List.drop_zero, List.take_zero, List.countP_nil, Nat.zero_add] at hph2
  rw [← List.range_eq_range'] at hph2
  constructor
  · intro hm0
    have hc1 : (A.take (idx + 1)).countP nfold = 0 := by omega
    have hc2 : (A.drop (idx + 1)).countP nfold = 0 := by omega
    rcases hph1 with ⟨hf1, _⟩ | ⟨j, _, hj1, hj2, hj3, _⟩
    · rcases hph2 with ⟨hf2, _⟩ | ⟨j, _, _, hj2, hj3, _⟩
      · rw [hfneq, List.find?_append, hf1, hf2]
        rfl
      · exfalso
        have hjlen : j < (A.take (idx + 1)).length := by
          rw [List.length_take]
          omega
        have hjmem : A.getD j defSeat ∈ A.take (idx + 1) := by
          refine List.mem_iff_getElem.mpr ⟨j, hjlen, ?_⟩
          rw [List.getElem_take]
          exact (List.getD_eq_getElem A defSeat (by omega)).symm
        have : 0 < (A.take (idx + 1)).countP nfold :=
          List.countP_pos_iff.mpr ⟨_, hjmem, hj3⟩
        omega
    · exfalso
      have hjmem : A.getD j defSeat ∈ A.drop (idx + 1) := by
        have hjlt : j - (idx + 1) < (A.drop (idx + 1)).length := by
          rw [List.length_drop]
          omega
        refine List.mem_iff_getElem.mpr ⟨j - (idx + 1), hjlt, ?_⟩
        rw [List.getElem_drop, List.getD_eq_getElem A defSeat (by omega)]
        congr 1
        omega
      have : 0 < (A.drop (idx + 1)).countP nfold :=
        List.countP_pos_iff.mpr ⟨_, hjmem, hj3⟩
      omega
  · intro hmpos
    rcases hph1 with ⟨hf1, hc1⟩ | ⟨j, hf1, hj1, hj2, hj3, hj4⟩
    · have hr1m : (A.take (idx + 1)).countP nfold = A.countP nfold := by omega
      rcases hph2 with ⟨hf2, hc2⟩ | ⟨j, hf2, hj1, hj2, hj3, hj4⟩
      · exfalso
        omega
      · refine ⟨j, ?_, by omega, hj3, ?_⟩
        · rw [hfneq, List.find?_append, hf1]
          simpa using hf2
        · unfold rankOf
          rw [hj4, hr1m, Nat.mod_self]
    · refine ⟨j, ?_, by omega, hj3, ?_⟩
      · rw [hfneq, List.find?_append, hf1]
        rfl
      · unfold rankOf
        rw [hj4]
        have hdpos : 0 < (A.drop (idx + 1)).countP nfold := by
          have hjmem : A.getD j defSeat ∈ A.drop (idx + 1) := by
            have hjlt : j - (idx + 1) < (A.drop (idx + 1)).length := by
              rw [List.length_drop]
              omega
            refine List.mem_iff_getElem.mpr ⟨j - (idx + 1), hjlt, ?_⟩
            rw [List.getElem_drop, List.getD_eq_getElem A defSeat (by omega)]
            congr 1
            omega
          exact List.countP_pos_iff.mpr ⟨_, hjmem, hj3⟩
        rw [Nat.mod_eq_of_lt (by omega)]



/-- The label at a non-folded index sits at its rank in the alive list. -/
theorem aliveOf_getD (A : List PSeat) :
    ∀ idx, idx < A.length → nfold (A.getD idx defSeat) = true →
      (aliveOf A).getD (rankOf A idx) "" = (A.getD idx defSeat).pos := by
  induction A with
  | nil =>
    intro idx h
    simp at h
  | cons p t ih =>
    intro idx hidx hnf
    cases idx with
    | zero =>
      have hp : nfold p = true := hnf
      unfold aliveOf rankOf
      rw [List.filter_cons, if_pos hp]
      rfl
    | succ k =>
      have hk : k < t.length := by simpa using hidx
      have hnf2 : nfold (t.getD k defSeat) = true := hnf
      show (aliveOf (p :: t)).getD (rankOf (p :: t) (k + 1)) "" = (t.getD k defSeat).pos
      have hrank : rankOf (p :: t) (k + 1) =
          rankOf t k + if nfold p = true then 1 else 0 := by
        unfold rankOf
        rw [List.take_succ_cons, List.countP_cons]
      cases hp : nfold p with
      | true =>
        have halive : aliveOf (p :: t) = p.pos :: aliveOf t := by
          unfold aliveOf
          rw [List.filter_cons, if_pos hp, List.map_cons]
        rw [halive, hrank, hp]
        simp only [if_true]
        rw [List.getD_cons_succ]
        exact ih k hk hnf2
      | false =>
        have halive : aliveOf (p :: t) = aliveOf t := by
          unfold aliveOf
          rw [List.filter_cons, if_neg (by simp [hp])]
        rw [halive, hrank, hp]
        simp only [Bool.false_eq_true, if_false, Nat.add_zero]
        exact ih k hk hnf2


/-- Folding the seat at a non-folded index removes exactly its entry from
the alive list. -/
theorem aliveOf_set_fold (A : List PSeat) :
    ∀ idx p', idx < A.length → nfold (A.getD idx defSeat) = true →
      nfold p' = false →
      aliveOf (A.set idx p') = (aliveOf A).eraseIdx (rankOf A idx) := by
  induction A with
  | nil =>
    intro idx p' h _ _
    simp at h
  | cons p t ih =>
    intro idx p' hidx hnf hp'
    cases idx with
    | zero =>
      have hp : nfold p = true := hnf
      show aliveOf (p' :: t) = (aliveOf (p :: t)).eraseIdx (rankOf (p :: t) 0)
      have h1 : aliveOf (p' :: t) = aliveOf t := by
        unfold aliveOf
        rw [List.filter_cons, if_neg (by simp [hp'])]
      have h2 : aliveOf (p :: t) = p.pos :: aliveOf t := by
        unfold aliveOf
        rw [List.filter_cons, if_pos hp, List.map_cons]
      rw [h1, h2]
      rfl
    | succ k =>
      have hk : k < t.length := by simpa using hidx
      show aliveOf (p :: t.set k p') = (aliveOf (p :: t)).eraseIdx (rankOf (p :: t) (k + 1))
      have hrank : rankOf (p :: t) (k + 1) =
          rankOf t k + if nfold p = true then 1 else 0 := by
        unfold rankOf
        rw [List.take_succ_cons, List.countP_cons]
      cases hp : nfold p with
      | true =>
        have ha : aliveOf (p :: t.set k p') = p.pos :: aliveOf (t.set k p') := by
          unfold aliveOf
          rw [List.filter_cons, if_pos hp, List.map_cons]
        have hb : aliveOf (p :: t) = p.pos :: aliveOf t := by
          unfold aliveOf
          rw [List.filter_cons, if_pos hp, List.map_cons]
        rw [ha, hb, hrank, hp]
        simp only [if_true]
        rw [List.eraseIdx_cons_succ, ih k p' hk hnf hp']
      | false =>
        have ha : aliveOf (p :: t.set k p') = aliveOf (t.set k p') := by
          unfold aliveOf
          rw [List.filter_cons, if_neg (by simp [hp])]
        have hb : aliveOf (p :: t) = aliveOf t := by
          unfold aliveOf
          rw [List.filter_cons, if_neg (by simp [hp])]
        rw [ha, hb, hrank, hp]
        simp only [Bool.false_eq_true, if_false, Nat.add_zero]
        exact ih k p' hk hnf hp'

/-- Replacing a seat with one of the same label and folded flag changes
neither the alive list, nor any rank, nor the per-index folded flags and
labels. -/
theorem set_shape (A : List PSeat) :
    ∀ idx p', p'.pos = (A.getD idx defSeat).pos →
      p'.is_folded = (A.getD idx defSeat).is_folded →
      aliveOf (A.set idx p') = aliveOf A ∧
        (∀ k, rankOf (A.set idx p') k = rankOf A k) ∧
        (∀ j, nfold ((A.set idx p').getD j defSeat) = nfold (A.getD j defSeat)) ∧
        (∀ j, ((A.set idx p').getD j defSeat).pos = (A.getD j defSeat).pos) := by
  induction A with
  | nil =>
    intro idx p' _ _
    exact ⟨rfl, fun _ => rfl, fun _ => rfl, fun _ => rfl⟩
  | cons p t ih =>
    intro idx p' h1 h2
    cases idx with
    | zero =>
      have hnf : nfold p' = nfold p := by
        unfold nfold
        rw [h2]
        rfl
      simp only [List.set_cons_zero]
      refine ⟨?_, ?_, ?_, ?_⟩
      · unfold aliveOf
        rw [List.filter_cons, List.filter_cons, hnf]
        by_cases hp : nfold p = true
        · rw [if_pos hp, if_pos hp, List.map_cons, List.map_cons, h1]
          rfl
        · rw [if_neg hp, if_neg hp]
      · intro k
        cases k with
        | zero => rfl
        | succ k2 =>
          unfold rankOf
          rw [List.take_succ_cons, List.take_succ_cons, List.countP_cons,
            List.countP_cons, hnf]
      · intro j
        cases j with
        | zero => exact hnf
        | succ j2 => rfl
      · intro j
        cases j with
        | zero => exact h1
        | succ j2 => rfl
    | succ k =>
      obtain ⟨ia, ib, ic, ihd⟩ := ih k p' h1 h2
      simp only [List.set_cons_succ]
      refine ⟨?_, ?_, ?_, ?_⟩
      · unfold aliveOf at ia ⊢
        rw [List.filter_cons, List.filter_cons]
        by_cases hp : nfold p = true
        · rw [if_pos hp, if_pos hp, List.map_cons, List.map_cons, ia]
        · rw [if_neg hp, if_neg hp]
          exact ia
      · intro kk
        cases kk with
        | zero => rfl
        | succ kk2 =>
          unfold rankOf at ib ⊢
          rw [List.take_succ_cons, List.take_succ_cons, List.countP_cons,
            List.countP_cons, ib kk2]
      · intro j
        cases j with
        | zero => rfl
        | succ j2 => exact ic j2
      · intro j
        cases j with
        | zero => rfl
        | succ j2 => exact ihd j2



/-- Unpacking the all-in-free table check. -/
theorem no_allin_mem (A : List PSeat) (h : no_allin A = true) :
    ∀ p ∈ A, p.is_all_in = false := by
  unfold no_allin at h
  rw [List.all_eq_true] at h
  intro p hp
  simpa using h p hp

/-- The five shape facts for replacing one seat with a seat of the same
label and folded flag. -/
theorem set_shape5 (A : List PSeat) (idx : Nat) (p' : PSeat)
    (hpos : p'.pos = (A.getD idx defSeat).pos)
    (hfold : p'.is_folded = (A.getD idx defSeat).is_folded) :
    aliveOf (A.set idx p') = aliveOf A ∧
      (∀ k, rankOf (A.set idx p') k = rankOf A k) ∧
      (∀ j, nfold ((A.set idx p').getD j defSeat) = nfold (A.getD j defSeat)) ∧
      (∀ j, ((A.set idx p').getD j defSeat).pos = (A.getD j defSeat).pos) ∧
      (A.set idx p').length = A.length := by
  obtain ⟨a, b, c, d⟩ := set_shape A idx p' hpos hfold
  exact ⟨a, b, c, d, List.length_set A idx p'⟩

/-- A Fold decodes to exactly the fold branch of apply_action. -/
theorem apply_action_fold (A : List PSeat) (idx : Nat) (h : Rat) :
    apply_action A idx h "Fold" =
      A.set idx { A.getD idx defSeat with is_folded := true } := by
  unfold apply_action
  rw [if_pos rfl]

/-- Any non-Fold action changes only chip counts: the alive list, all
ranks, all folded flags, all labels and the length are untouched. -/
theorem apply_action_shape (A : List PSeat) (idx : Nat) (h : Rat) (astr : String)
    (hne : ¬astr = "Fold") :
    aliveOf (apply_action A idx h astr) = aliveOf A ∧
      (∀ k, rankOf (apply_action A idx h astr) k = rankOf A k) ∧
      (∀ j, nfold ((apply_action A idx h astr).getD j defSeat) =
        nfold (A.getD j defSeat)) ∧
      (∀ j, ((apply_action A idx h astr).getD j defSeat).pos =
        (A.getD j defSeat).pos) ∧
      (apply_action A idx h astr).length = A.length := by
  unfold apply_action
  rw [if_neg hne]
  split_ifs with h1 h2 h3 h4
  · exact set_shape5 A idx _ rfl rfl
  · exact set_shape5 A idx _ rfl rfl
  · cases hbb : bbSearch (chars astr) with
    | some target => exact set_shape5 A idx _ rfl rfl
    | none => exact ⟨rfl, fun _ => rfl, fun _ => rfl, fun _ => rfl, rfl⟩
  · exact set_shape5 A idx _ rfl rfl
  · exact ⟨rfl, fun _ => rfl, fun _ => rfl, fun _ => rfl, rfl⟩

/-- When the post-action all-in mark would fire, the table would contain
an all-in seat; on an all-in-free run the mark is therefore skipped. -/
theorem mark_skip (s1 : List PSeat) (idx : Nat) (q : PSeat) (c : Prop)
    [Decidable c] (hidx : idx < s1.length) (hq : q.is_all_in = true)
    (hna : no_allin (if c then s1.set idx q else s1) = true) :
    (if c then s1.set idx q else s1) = s1 := by
  by_cases hc : c
  · exfalso
    rw [if_pos hc] at hna
    have hlen : idx < (s1.set idx q).length := by
      rw [List.length_set]
      exact hidx
    have hmem : q ∈ s1.set idx q := by
      have hget : (s1.set idx q)[idx] = q := List.getElem_set_self hlen
      exact List.mem_iff_getElem.mpr ⟨idx, hlen, hget⟩
    have := no_allin_mem _ hna q hmem
    rw [hq] at this
    cases this
  · rw [if_neg hc]



/-- take commutes with a set at a not-yet-taken index. -/
theorem take_set_le (x : PSeat) :
    ∀ (A : List PSeat) (idx k : Nat), k ≤ idx → (A.set idx x).take k = A.take k := by
  intro A
  induction A with
  | nil => intro idx k _; rfl
  | cons a t ih =>
    intro idx k hk
    cases idx with
    | zero =>
      have hk0 : k = 0 := by omega
      subst hk0
      rfl
    | succ i =>
      cases k with
      | zero => rfl
      | succ k2 =>
        simp only [List.set_cons_succ, List.take_succ_cons]
        rw [ih i k2 (by omega)]

/-- getD after setting the same index. -/
theorem getD_set_self (A : List PSeat) (idx : Nat) (x : PSeat)
    (h : idx < A.length) : (A.set idx x).getD idx defSeat = x := by
  have hlen : idx < (A.set idx x).length := by
    rw [List.length_set]
    exact h
  rw [List.getD_eq_getElem _ defSeat hlen]
  exact List.getElem_set_self hlen

/-- getD of a valid index is a member. -/
theorem getD_mem (A : List PSeat) (idx : Nat) (h : idx < A.length) :
    A.getD idx defSeat ∈ A := by
  rw [List.getD_eq_getElem _ defSeat h]
  exact List.getElem_mem h

/-- The alive list has one entry per non-folded seat. -/
theorem alive_length (B : List PSeat) : (aliveOf B).length = B.countP nfold := by
  unfold aliveOf
  rw [List.length_map, ← List.countP_eq_length_filter]

/-- Rank one past a non-folded index. -/
theorem rank_succ_true (A : List PSeat) (idx : Nat) (h : idx < A.length)
    (hnf : nfold (A.getD idx defSeat) = true) :
    rankOf A (idx + 1) = rankOf A idx + 1 := by
  unfold rankOf
  rw [List.take_succ, List.countP_append]
  have hone : A[idx]?.toList = [A.getD idx defSeat] := by
    rw [List.getElem?_eq_getElem h, List.getD_eq_getElem _ _ h]
    rfl
  rw [hone]
  have h1 : List.countP nfold [A.getD idx defSeat] = 1 := by
    simp only [List.countP_cons, List.countP_nil, hnf, if_true]
  rw [h1]

/-- Rank one past a folded index. -/
theorem rank_succ_false (A : List PSeat) (idx : Nat) (h : idx < A.length)
    (hnf : nfold (A.getD idx defSeat) = false) :
    rankOf A (idx + 1) = rankOf A idx := by
  unfold rankOf
  rw [List.take_succ, List.countP_append]
  have hone : A[idx]?.toList = [A.getD idx defSeat] := by
    rw [List.getElem?_eq_getElem h, List.getD_eq_getElem _ _ h]
    rfl
  rw [hone]
  have h0 : List.countP nfold [A.getD idx defSeat] = 0 := by
    simp only [List.countP_cons, List.countP_nil, hnf, Bool.false_eq_true, if_false]
  rw [h0, Nat.add_zero]

/-- A rank never exceeds the number of non-folded seats. -/
theorem rank_le_countP (A : List PSeat) (idx : Nat) :
    rankOf A idx ≤ A.countP nfold := by
  unfold rankOf
  conv_rhs => rw [← List.take_append_drop idx A]
  rw [List.countP_append]
  omega

/-- The total count is the rank at the length. -/
theorem countP_eq_rank_length (A : List PSeat) :
    A.countP nfold = rankOf A A.length := by
  unfold rankOf
  rw [List.take_length]



/-- Simulation lemma: on an all-in-free run the source simulator computes
exactly the fold/advance model of the specification, with the alive list
being the non-folded labels and the cursor being the rank of the active
index. -/
theorem replay_sim (codes : List Int) :
    ∀ (A : List PSeat) (idx : Nat) (hb : Rat),
      0 < A.length → idx < A.length → nfold (A.getD idx defSeat) = true →
      allin_free_run A idx hb codes = true →
      replay_loop A idx hb codes =
        some (spec_replay_go (aliveOf A) (rankOf A idx) codes) := by
  induction codes with
  | nil =>
    intro A idx hb _ hidx hnf _
    show some (A.getD idx defSeat).pos = some ((aliveOf A).getD (rankOf A idx) "")
    rw [aliveOf_getD A idx hidx hnf]
  | cons c rest ih =>
    intro A idx hb hn hidx hnf hrun
    unfold allin_free_run at hrun
    cases hd : number_to_action (intStr c) with
    | none =>
      rw [hd] at hrun
      cases hrun
    | some astr =>
      rw [hd] at hrun
      dsimp only at hrun
      unfold replay_loop
      rw [hd]
      dsimp only
      unfold replay_step at hrun ⊢
      dsimp only at hrun ⊢
      by_cases hF : astr = "Fold"
      · -- the decoded action is a fold
        subst hF
        rw [apply_action_fold A idx hb] at hrun ⊢
        rw [getD_set_self A idx _ hidx] at hrun ⊢
        rw [Bool.and_eq_true] at hrun
        obtain ⟨hna, hnext⟩ := hrun
        have hs2 := mark_skip _ idx _ _
          (by rw [List.length_set]; exact hidx) rfl hna
        rw [hs2] at hna hnext ⊢
        set f : PSeat := { A.getD idx defSeat with is_folded := true } with hfdef
        have hlenA2 : (A.set idx f).length = A.length := List.length_set A idx f
        have hallinA2 := no_allin_mem _ hna
        have hnfidx : nfold ((A.set idx f).getD idx defSeat) = false := by
          rw [getD_set_self A idx f hidx]
          unfold nfold
          simp
        have herase : aliveOf (A.set idx f) = (aliveOf A).eraseIdx (rankOf A idx) :=
          aliveOf_set_fold A idx f hidx hnf (by unfold nfold; simp)
        have hr1 : rankOf (A.set idx f) (idx + 1) = rankOf A idx := by
          have ha := rank_succ_false (A.set idx f) idx
            (by rw [hlenA2]; exact hidx) hnfidx
          have hb2 : rankOf (A.set idx f) idx = rankOf A idx := by
            unfold rankOf
            rw [take_set_le f A idx idx (le_refl idx)]
          exact ha.trans hb2
        have hsplit : (A.set idx f).countP nfold =
            ((A.set idx f).take (idx + 1)).countP nfold +
              ((A.set idx f).drop (idx + 1)).countP nfold := by
          conv_lhs => rw [← List.take_append_drop (idx + 1) (A.set idx f)]
          rw [List.countP_append]
        have hrle : rankOf A idx ≤ (A.set idx f).countP nfold := by
          rw [← hr1]
          exact rank_le_countP (A.set idx f) (idx + 1)
        have hcrux := find_next_cases (A.set idx f) idx
          (by rw [hlenA2]; exact hn) (by rw [hlenA2]; exact hidx) hallinA2
        have hfc : isFoldCode c = true := by
          unfold isFoldCode
          rw [hd]
          decide
        unfold spec_replay_go
        rw [hfc]
        dsimp only
        rw [← herase]
        by_cases hm0 : (A.set idx f).countP nfold = 0
        · rw [hcrux.1 hm0]
          have hemp : (aliveOf (A.set idx f)).isEmpty = true := by
            rw [List.isEmpty_iff_length_eq_zero, alive_length]
            exact hm0
          rw [hemp]
          rfl
        · have hmpos : 0 < (A.set idx f).countP nfold := Nat.pos_of_ne_zero hm0
          obtain ⟨j, hfind, hjlen, hjnf, hjrank⟩ := hcrux.2 hmpos
          rw [hfind] at hnext ⊢
          dsimp only at hnext ⊢
          have hemp : (aliveOf (A.set idx f)).isEmpty = false := by
            rw [← Bool.not_eq_true, List.isEmpty_iff_length_eq_zero, alive_length]
            omega
          rw [hemp]
          have ihEq := ih (A.set idx f) j (rMax hb f.bet)
            (by rw [hlenA2]; exact hn) hjlen hjnf hnext
          refine ihEq.trans ?_
          have hcur : rankOf (A.set idx f) j =
              (if rankOf A idx ≥ (aliveOf (A.set idx f)).length then 0
                else rankOf A idx) := by
            rw [hjrank]
            have htk : ((A.set idx f).take (idx + 1)).countP nfold = rankOf A idx := hr1
            rw [htk, alive_length]
            rcases Nat.lt_or_ge (rankOf A idx) ((A.set idx f).countP nfold) with hlt | hge
            · rw [Nat.mod_eq_of_lt hlt, if_neg (by omega)]
            · have heq : rankOf A idx = (A.set idx f).countP nfold := by omega
              rw [heq, Nat.mod_self, if_pos (by omega)]
          rw [hcur]
          rfl
      · -- the decoded action is not a fold
        rw [Bool.and_eq_true] at hrun
        obtain ⟨hna, hnext⟩ := hrun
        obtain ⟨hal, hrankk, hnfj, hposj, hlen1⟩ := apply_action_shape A idx hb astr hF
        have hs2 := mark_skip _ idx _ _
          (by rw [hlen1]; exact hidx) rfl hna
        rw [hs2] at hna hnext ⊢
        have hallin1 := no_allin_mem _ hna
        have hnf1 : nfold ((apply_action A idx hb astr).getD idx defSeat) = true := by
          rw [hnfj idx]
          exact hnf
        have hm1 : (apply_action A idx hb astr).countP nfold = A.countP nfold := by
          have h1 := countP_eq_rank_length (apply_action A idx hb astr)
          have h2 := countP_eq_rank_length A
          rw [h1, hlen1, hrankk A.length, ← h2]
        have hmpos : 0 < (apply_action A idx hb astr).countP nfold := by
          rw [hm1]
          exact List.countP_pos_iff.mpr ⟨A.getD idx defSeat, getD_mem A idx hidx, hnf⟩
        obtain ⟨j, hfind, hjlen, hjnf, hjrank⟩ :=
          (find_next_cases (apply_action A idx hb astr) idx
            (by rw [hlen1]; exact hn) (by rw [hlen1]; exact hidx) hallin1).2 hmpos
        rw [hfind] at hnext ⊢
        dsimp only at hnext ⊢
        have hfc : isFoldCode c = false := by
          unfold isFoldCode
          rw [hd]
          simp [hF]
        have hr1 : rankOf (apply_action A idx hb astr) (idx + 1) = rankOf A idx + 1 := by
          rw [rank_succ_true (apply_action A idx hb astr) idx
            (by rw [hlen1]; exact hidx) hnf1, hrankk idx]
        unfold spec_replay_go
        rw [hfc]
        have ihEq := ih (apply_action A idx hb astr) j
          (rMax hb ((apply_action A idx hb astr).getD idx defSeat).bet)
          (by rw [hlen1]; exact hn) hjlen hjnf hnext
        refine ihEq.trans ?_
        have hcur : rankOf (apply_action A idx hb astr) j =
            (rankOf A idx + 1) % (aliveOf A).length := by
          rw [hjrank]
          have htk : ((apply_action A idx hb astr).take (idx + 1)).countP nfold =
              rankOf A idx + 1 := hr1
          rw [htk, hm1, alive_length]
        rw [hal, hcur]
        rfl


/-- Setting one seat preserves all-unfolded when the new seat is unfolded. -/
theorem set_fold_pres (l : List PSeat) (i : Nat) (q : PSeat)
    (h : ∀ p ∈ l, p.is_folded = false) (hq : q.is_folded = false) :
    ∀ p ∈ l.set i q, p.is_folded = false := by
  intro p hp
  rcases List.mem_or_eq_of_mem_set hp with hp1 | rfl
  · exact h p hp1
  · exact hq

/-- getD from an all-unfolded table is unfolded (the default seat is too). -/
theorem getD_fold (l : List PSeat) (i : Nat)
    (h : ∀ p ∈ l, p.is_folded = false) : (l.getD i defSeat).is_folded = false := by
  by_cases hi : i < l.length
  · exact h _ (getD_mem l i hi)
  · rw [List.getD_eq_default l defSeat (by omega)]
    rfl

/-- Posting blinds folds nobody. -/
theorem post_blinds_fold (l : List PSeat)
    (h : ∀ p ∈ l, p.is_folded = false) :
    ∀ p ∈ post_blinds l, p.is_folded = false := by
  intro p hp
  unfold post_blinds at hp
  split at hp
  · dsimp only at hp
    refine set_fold_pres _ _ _ ?_ ?_ p hp
    · exact set_fold_pres l _ _ h (getD_fold l _ h)
    · exact getD_fold _ _ (set_fold_pres l _ _ h (getD_fold l _ h))
  · exact h p hp

/-- No seat of the initial table is folded. -/
theorem init_fold (players : List String) :
    ∀ p ∈ init_states players, p.is_folded = false := by
  intro p hp
  unfold init_states at hp
  obtain ⟨s, _, rfl⟩ := List.mem_map.mp hp
  rfl

/-- Setting a seat to one with the same position label leaves the
position column unchanged. -/
theorem map_pos_set (l : List PSeat) :
    ∀ (i : Nat) (q : PSeat), q.pos = (l.getD i defSeat).pos →
      (l.set i q).map PSeat.pos = l.map PSeat.pos := by
  induction l with
  | nil => intro i q _; rfl
  | cons p t ih =>
    intro i q hq
    cases i with
    | zero =>
      rw [List.getD_cons_zero] at hq
      rw [List.set_cons_zero, List.map_cons, List.map_cons, hq]
    | succ n =>
      rw [List.getD_cons_succ] at hq
      rw [List.set_cons_succ, List.map_cons, List.map_cons, ih n q hq]

/-- Posting blinds changes no position label. -/
theorem post_blinds_map_pos (l : List PSeat) :
    (post_blinds l).map PSeat.pos = l.map PSeat.pos := by
  unfold post_blinds
  split
  · dsimp only
    refine (map_pos_set _ _ _ ?_).trans (map_pos_set _ _ _ ?_)
    · rfl
    · rfl
  · rfl

/-- The position column of the initial table is the first component of
the shared seat parser. -/
theorem init_map_pos (players : List String) :
    (init_states players).map PSeat.pos =
      players.map (fun p => (parse_position_bb p).1) := by
  unfold init_states
  rw [List.map_map]
  rfl

/-- Posting blinds keeps the table length. -/
theorem post_blinds_length (l : List PSeat) :
    (post_blinds l).length = l.length := by
  unfold post_blinds
  split
  · dsimp only
    rw [List.length_set, List.length_set]
  · rfl

/-- C1. The replay simulator does not implement the simple fold/advance
model: on the two-seat node [1, 1] (two calls) it exhausts the cyclic
turn search over the stack-tracking table and returns the early
"action is over" result "", while the fold/advance model of the claim
leaves the cursor on seat A.  The simulator agrees with the claim's
model exactly on runs in which no decode step fails and no seat is ever
driven all-in (hypothesis allin_free_run); the amended theorem
claim_C1_amended states that agreement. -/
theorem claim_C1_counterexample :
    get_active_player [1, 1] ["1A", "1B"] = some "" ∧
    spec_replay [1, 1] ["1A", "1B"] = "A" := by
  decide

/-- C1 (amended). On every run of the codes in which no decode step
fails and no seat is ever all-in (allin_free_run on the blinds-posted
table), get_active_player returns exactly the answer of the simple
fold/advance replay model of the claim: a decoded Fold removes the seat
at the cursor from the alive list, every other action advances the
cursor to the next alive seat modulo the alive count, and after all
codes the position label at the cursor is returned. -/
theorem claim_C1_amended (node : List Int) (players : List String)
    (hne : players ≠ [])
    (hrun : allin_free_run (post_blinds (init_states players)) 0 1 node = true) :
    get_active_player node players = some (spec_replay node players) := by
  have hlenA : (post_blinds (init_states players)).length = players.length := by
    rw [post_blinds_length]
    unfold init_states
    rw [List.length_map]
  have hn : 0 < (post_blinds (init_states players)).length := by
    rw [hlenA]
    exact List.length_pos.mpr hne
  have hfold : ∀ p ∈ post_blinds (init_states players), p.is_folded = false :=
    post_blinds_fold _ (init_fold players)
  have hnf : nfold ((post_blinds (init_states players)).getD 0 defSeat) = true := by
    unfold nfold
    rw [hfold _ (getD_mem _ 0 hn)]
    rfl
  have hmain := replay_sim node (post_blinds (init_states players)) 0 1 hn hn hnf hrun
  have halive : aliveOf (post_blinds (init_states players)) =
      players.map (fun p => (parse_position_bb p).1) := by
    unfold aliveOf
    rw [List.filter_eq_self.mpr (fun p hp => by
      unfold nfold
      rw [hfold p hp]
      rfl)]
    rw [post_blinds_map_pos, init_map_pos]
  unfold get_active_player
  rw [if_neg hne, hmain, halive]
  rfl

/-- C1 amended theorem instantiated on a concrete three-seat node. -/
theorem claim_C1_witness :
    (["25BTN", "12SB", "13BB"] : List String) ≠ [] ∧
    allin_free_run (post_blinds (init_states ["25BTN", "12SB", "13BB"])) 0 1
      [0, 1] = true ∧
    get_active_player [0, 1] ["25BTN", "12SB", "13BB"] =
      some (spec_replay [0, 1] ["25BTN", "12SB", "13BB"]) :=
  ⟨by decide, by decide,
    claim_C1_amended [0, 1] ["25BTN", "12SB", "13BB"] (by decide) (by decide)⟩

end GTO
